import Mathlib

/-!
Verification of the vault-kit note-graph engine.

The TypeScript core (src/graph.ts, src/filter.ts, src/markdown.ts,
src/search.ts) is embedded shallowly: strings are `List Char`, JavaScript
`Map`s are association lists with insertion-order semantics, JavaScript
`Set`s are first-occurrence-deduplicated lists.  External collaborators
(the YAML library, the regular-expression engine, Unicode NFD
decomposition, `Date` parsing) are taken as explicit function parameters.
-/

set_option maxHeartbeats 1000000

namespace VaultKit

abbrev Str := List Char

/-- Lift a Lean string literal into the character-list representation. -/
def str (s : String) : Str := s.data

/-- Per-character model of JavaScript `toLowerCase` (ASCII fragment:
`A`-`Z`, i.e. code points 65-90, shift by 32; other characters are kept). -/
def jsLower (c : Char) : Char :=
  if 65 ≤ c.toNat ∧ c.toNat ≤ 90 then Char.ofNat (c.toNat + 32) else c

/-- JavaScript whitespace (the characters `trim` removes; ASCII cases plus
the common Unicode ones). -/
def isJsWs (c : Char) : Bool :=
  decide (c.toNat = 32 ∨ c.toNat = 9 ∨ c.toNat = 10 ∨ c.toNat = 13 ∨
    c.toNat = 11 ∨ c.toNat = 12 ∨ c.toNat = 160 ∨ c.toNat = 65279)

/-- JavaScript `String.prototype.trim`. -/
def jsTrim (s : Str) : Str :=
  ((s.dropWhile isJsWs).reverse.dropWhile isJsWs).reverse

/-- Lowercase a whole string, character by character. -/
def lowerStr (s : Str) : Str := s.map jsLower

/-- JavaScript `String.prototype.startsWith`. -/
def jsStartsWith (s pre : Str) : Bool :=
  match s, pre with
  | _, [] => true
  | [], _ :: _ => false
  | c :: cs, p :: ps => c == p && jsStartsWith cs ps

/-- JavaScript `String.prototype.includes`. -/
def includesStr (s pat : Str) : Bool :=
  match s with
  | [] => pat.isEmpty
  | _ :: cs => jsStartsWith s pat || includesStr cs pat

/-- JavaScript `Set` add: append unless already present. -/
def setAdd (s : List Str) (x : Str) : List Str :=
  if x ∈ s then s else s ++ [x]

/-- `new Set(list)`: iterate, keeping each element the first time it is
seen. -/
def dedupFirstAux (seen : List Str) : List Str → List Str
  | [] => []
  | x :: xs =>
    if x ∈ seen then dedupFirstAux seen xs
    else x :: dedupFirstAux (seen ++ [x]) xs

/-- `new Set(list)`: deduplicate keeping the first occurrence of each
element, in order. -/
def dedupFirst (l : List Str) : List Str := dedupFirstAux [] l

theorem bool_eq_false (b : Bool) (h : ¬ b = true) : b = false := by
  cases b
  · rfl
  · exact absurd rfl h

/-! ### JavaScript `Map` as an insertion-ordered association list -/

abbrev JsMap (α : Type) := List (Str × α)

def mapGet {α : Type} (m : JsMap α) (k : Str) : Option α :=
  match m with
  | [] => none
  | (k₂, v) :: rest => if k₂ = k then some v else mapGet rest k

def mapHas {α : Type} (m : JsMap α) (k : Str) : Bool :=
  (mapGet m k).isSome

/-- `Map.prototype.set`: replace in place if the key exists, else append. -/
def mapSet {α : Type} (m : JsMap α) (k : Str) (v : α) : JsMap α :=
  match m with
  | [] => [(k, v)]
  | (k₂, v₂) :: rest =>
    if k₂ = k then (k₂, v) :: rest else (k₂, v₂) :: mapSet rest k v

def mapKeys {α : Type} (m : JsMap α) : List Str := m.map Prod.fst

/-! ### Data model (src/types.ts, described in the spec's §3) -/

structure Wikilink where
  name : Str
  heading : Option Str
  aliasText : Option Str
  line : Nat
  embed : Bool
deriving DecidableEq, Repr

structure Note where
  name : Str
  path : Str
  content : Str
  mtime : Int
  wikilinks : List Wikilink
  frontmatterTags : List Str
  inlineTags : List Str
deriving DecidableEq, Repr

/-- Modelled from the spec: `allTags` (src/types.ts, not included in the
sources) — "Union-with-dedup of the two is all tags for a note". -/
def allTags (n : Note) : List Str :=
  dedupFirst (n.frontmatterTags ++ n.inlineTags)

structure GraphState where
  vaultPath : Str
  notes : JsMap Note
  forward : JsMap (List Str)
  backward : JsMap (List Str)
  missing : JsMap (List Str)
  fuzzyIndex : JsMap Str
deriving DecidableEq, Repr

/-! ### Name normalization (src/graph.ts `normalize` / `normalizeFuzzy`) -/

/-- `name.trim().toLowerCase()`. -/
def normKey (name : Str) : Str := lowerStr (jsTrim name)

/-- `.replace(/[-_]/g, "")`. -/
def stripDashUnderscore (s : Str) : Str :=
  s.filter (fun c => ¬ (c = '-' ∨ c = '_'))

/-- `.replace(/[^ -~]/g, "")`: keep printable ASCII only. -/
def keepPrintableAscii (s : Str) : Str :=
  s.filter (fun c => 32 ≤ c.toNat ∧ c.toNat ≤ 126)

/-- `normalizeFuzzy`, parameterized by the external Unicode NFD
decomposition `nfd` (`String.prototype.normalize("NFD")`). -/
def normFuzzy (nfd : Str → Str) (name : Str) : Str :=
  keepPrintableAscii (nfd (stripDashUnderscore (lowerStr (jsTrim name))))

/-! ### Adjacency construction (src/graph.ts `buildAdjacency`) -/

structure Adjacency where
  forward : JsMap (List Str)
  backward : JsMap (List Str)
  missing : JsMap (List Str)

/-- One `(source, target)` step of the inner loop of `buildAdjacency`. -/
def adjInsertTarget (notes : JsMap Note) (sourceKey : Str) (acc : Adjacency)
    (targetKey : Str) : Adjacency :=
  let bwd := mapSet acc.backward targetKey
    (setAdd ((mapGet acc.backward targetKey).getD []) sourceKey)
  if mapHas notes targetKey then
    { acc with backward := bwd }
  else
    { acc with
      backward := bwd
      missing := mapSet acc.missing targetKey
        (setAdd ((mapGet acc.missing targetKey).getD []) sourceKey) }

/-- One note of the outer loop of `buildAdjacency`. -/
def adjInsertNote (notes : JsMap Note) (acc : Adjacency)
    (entry : Str × Note) : Adjacency :=
  let targets := dedupFirst (entry.2.wikilinks.map (fun wl => normKey wl.name))
  let acc₂ := { acc with forward := mapSet acc.forward entry.1 targets }
  targets.foldl (adjInsertTarget notes entry.1) acc₂

/-- `buildAdjacency(notes)` (src/graph.ts lines 59-80). -/
def buildAdjacency (notes : JsMap Note) : Adjacency :=
  notes.foldl (adjInsertNote notes) { forward := [], backward := [], missing := [] }

/-! ### Lemmas about the map/set primitives -/

theorem mapGet_mapSet_self {α : Type} (m : JsMap α) (k : Str) (v : α) :
    mapGet (mapSet m k v) k = some v := by
  induction m with
  | nil => simp [mapSet, mapGet]
  | cons hd tl ih =>
    obtain ⟨k₂, v₂⟩ := hd
    by_cases h : k₂ = k
    · simp [mapSet, mapGet, h]
    · simp [mapSet, mapGet, h, ih]

theorem mapGet_mapSet_ne {α : Type} (m : JsMap α) (k k₂ : Str) (v : α)
    (h : k ≠ k₂) : mapGet (mapSet m k v) k₂ = mapGet m k₂ := by
  induction m with
  | nil => simp [mapSet, mapGet, h]
  | cons hd tl ih =>
    obtain ⟨k₃, v₃⟩ := hd
    by_cases h₂ : k₃ = k
    · subst h₂
      simp [mapSet, mapGet, h]
    · simp [mapSet, mapGet, h₂, ih]

theorem mapGet_eq_none_iff {α : Type} (m : JsMap α) (k : Str) :
    mapGet m k = none ↔ k ∉ mapKeys m := by
  induction m with
  | nil =>
    constructor
    · intro _ hmem
      cases hmem
    · intro _
      rfl
  | cons hd tl ih =>
    obtain ⟨k₂, v₂⟩ := hd
    by_cases h : k₂ = k
    · subst h
      simp only [mapGet, mapKeys, List.map_cons]
      rw [if_pos trivial]
      constructor
      · intro hn
        cases hn
      · intro hmem
        exact absurd (List.mem_cons_self _ _) hmem
    · simp only [mapGet, mapKeys, List.map_cons]
      rw [if_neg h, ih]
      constructor
      · intro hnk hmem
        rcases List.mem_cons.mp hmem with he | he
        · exact h he.symm
        · exact hnk he
      · intro hmem hk
        exact hmem (List.mem_cons_of_mem _ hk)

theorem mem_setAdd_self (s : List Str) (x : Str) : x ∈ setAdd s x := by
  unfold setAdd
  by_cases h : x ∈ s <;> simp [h]

theorem mem_setAdd_of_mem (s : List Str) (x y : Str) (h : y ∈ s) :
    y ∈ setAdd s x := by
  unfold setAdd
  by_cases h₂ : x ∈ s <;> simp [h, h₂]

/-! ### The adjacency-consistency invariant (claim C1) -/

/-- The consistency property of the spec's §8: every forward edge is
reflected either in `backward` (target exists) or in `missing` (broken).
A source with no entry in `forward` has an empty lookup, so quantifying
over all `s` is equivalent to quantifying over sources with an entry. -/
def AdjConsistent (notes : JsMap Note) (adj : Adjacency) : Prop :=
  ∀ s t, t ∈ (mapGet adj.forward s).getD [] →
    (mapHas notes t = true ∧ s ∈ (mapGet adj.backward t).getD []) ∨
    (mapHas notes t = false ∧ s ∈ (mapGet adj.missing t).getD [])

theorem adjInsertTarget_preserves_backward (notes : JsMap Note)
    (sourceKey : Str) (acc : Adjacency) (tk s t : Str)
    (h : s ∈ (mapGet acc.backward t).getD []) :
    s ∈ (mapGet (adjInsertTarget notes sourceKey acc tk).backward t).getD [] := by
  unfold adjInsertTarget
  by_cases he : tk = t
  · subst he
    by_cases hm : mapHas notes tk <;>
      simp [hm, mapGet_mapSet_self, mem_setAdd_of_mem, h]
  · by_cases hm : mapHas notes tk <;>
      simp [hm, mapGet_mapSet_ne _ _ _ _ he, h]

theorem adjInsertTarget_preserves_missing (notes : JsMap Note)
    (sourceKey : Str) (acc : Adjacency) (tk s t : Str)
    (h : s ∈ (mapGet acc.missing t).getD []) :
    s ∈ (mapGet (adjInsertTarget notes sourceKey acc tk).missing t).getD [] := by
  unfold adjInsertTarget
  by_cases hm : mapHas notes tk
  · simp [hm, h]
  · by_cases he : tk = t
    · subst he
      simp [hm, mapGet_mapSet_self, mem_setAdd_of_mem, h]
    · simp [hm, mapGet_mapSet_ne _ _ _ _ he, h]

theorem adjInsertTarget_forward (notes : JsMap Note) (sourceKey : Str)
    (acc : Adjacency) (tk : Str) :
    (adjInsertTarget notes sourceKey acc tk).forward = acc.forward := by
  unfold adjInsertTarget
  by_cases hm : mapHas notes tk <;> simp [hm]

theorem adjFold_preserves_backward (notes : JsMap Note) (sourceKey : Str)
    (targets : List Str) (acc : Adjacency) (s t : Str)
    (h : s ∈ (mapGet acc.backward t).getD []) :
    s ∈ (mapGet (targets.foldl (adjInsertTarget notes sourceKey) acc).backward t).getD [] := by
  induction targets generalizing acc with
  | nil => simpa using h
  | cons hd tl ih =>
    simp only [List.foldl_cons]
    exact ih _ (adjInsertTarget_preserves_backward _ _ _ _ _ _ h)

theorem adjFold_preserves_missing (notes : JsMap Note) (sourceKey : Str)
    (targets : List Str) (acc : Adjacency) (s t : Str)
    (h : s ∈ (mapGet acc.missing t).getD []) :
    s ∈ (mapGet (targets.foldl (adjInsertTarget notes sourceKey) acc).missing t).getD [] := by
  induction targets generalizing acc with
  | nil => simpa using h
  | cons hd tl ih =>
    simp only [List.foldl_cons]
    exact ih _ (adjInsertTarget_preserves_missing _ _ _ _ _ _ h)

theorem adjFold_forward (notes : JsMap Note) (sourceKey : Str)
    (targets : List Str) (acc : Adjacency) :
    (targets.foldl (adjInsertTarget notes sourceKey) acc).forward = acc.forward := by
  induction targets generalizing acc with
  | nil => rfl
  | cons hd tl ih =>
    simp only [List.foldl_cons]
    rw [ih, adjInsertTarget_forward]

/-- After the inner fold has processed target `t`, the source is present in
`backward[t]` or `missing[t]` according to whether `t` is a note. -/
theorem adjFold_establishes (notes : JsMap Note) (sourceKey : Str)
    (targets : List Str) (acc : Adjacency) (t : Str) (ht : t ∈ targets) :
    (mapHas notes t = true ∧
      sourceKey ∈ (mapGet (targets.foldl (adjInsertTarget notes sourceKey) acc).backward t).getD []) ∨
    (mapHas notes t = false ∧
      sourceKey ∈ (mapGet (targets.foldl (adjInsertTarget notes sourceKey) acc).missing t).getD []) := by
  induction targets generalizing acc with
  | nil => cases ht
  | cons hd tl ih =>
    simp only [List.foldl_cons]
    rcases List.mem_cons.mp ht with h | h
    · subst h
      by_cases hm : mapHas notes t
      · left
        refine ⟨hm, adjFold_preserves_backward _ _ _ _ _ _ ?_⟩
        unfold adjInsertTarget
        simp [hm, mapGet_mapSet_self, mem_setAdd_self]
      · right
        refine ⟨by simpa using hm, adjFold_preserves_missing _ _ _ _ _ _ ?_⟩
        unfold adjInsertTarget
        simp [hm, mapGet_mapSet_self, mem_setAdd_self]
    · exact ih _ h

/-- Invariant preservation for one note of the outer fold. -/
theorem adjInsertNote_consistent (notes : JsMap Note) (acc : Adjacency)
    (entry : Str × Note) (hacc : AdjConsistent notes acc) :
    AdjConsistent notes (adjInsertNote notes acc entry) := by
  intro s t ht
  unfold adjInsertNote at ht ⊢
  rw [adjFold_forward] at ht
  by_cases hse : entry.1 = s
  · subst hse
    rw [mapGet_mapSet_self] at ht
    simp only [Option.getD_some] at ht
    exact adjFold_establishes notes entry.1 _ _ t ht
  · rw [mapGet_mapSet_ne _ _ _ _ hse] at ht
    rcases hacc s t ht with ⟨hm, hmem⟩ | ⟨hm, hmem⟩
    · exact Or.inl ⟨hm, adjFold_preserves_backward _ _ _ _ _ _ hmem⟩
    · exact Or.inr ⟨hm, adjFold_preserves_missing _ _ _ _ _ _ hmem⟩

theorem adjFoldNotes_consistent (notes : JsMap Note) (l : List (Str × Note))
    (acc : Adjacency) (hacc : AdjConsistent notes acc) :
    AdjConsistent notes (l.foldl (adjInsertNote notes) acc) := by
  induction l generalizing acc with
  | nil => simpa using hacc
  | cons hd tl ih =>
    simp only [List.foldl_cons]
    exact ih _ (adjInsertNote_consistent notes acc hd hacc)

/-- `buildAdjacency` satisfies the adjacency-consistency invariant. -/
theorem buildAdjacency_consistent (notes : JsMap Note) :
    AdjConsistent notes (buildAdjacency notes) := by
  unfold buildAdjacency
  apply adjFoldNotes_consistent
  intro s t ht
  simp [mapGet] at ht

/-! ### Graph construction and resolution (src/graph.ts `buildGraph`,
`resolve`).  The file-system scan is an out-of-scope collaborator: the
core is fed the already-read notes as a list. -/

def buildNotesMap (l : List Note) : JsMap Note :=
  l.foldl (fun m n => mapSet m (normKey n.name) n) []

/-- The `fuzzyIndex` loop of `buildGraph` (src/graph.ts lines 41-45):
first-write-wins over the notes map in iteration order. -/
def buildFuzzyIndex (nfd : Str → Str) (notes : JsMap Note) : JsMap Str :=
  notes.foldl
    (fun fi kv =>
      if mapHas fi (normFuzzy nfd kv.2.name) then fi
      else mapSet fi (normFuzzy nfd kv.2.name) kv.1)
    []

/-- `buildGraph` minus the file-system scan. -/
def buildGraphState (nfd : Str → Str) (vaultPath : Str) (l : List Note) :
    GraphState :=
  let notes := buildNotesMap l
  let adj := buildAdjacency notes
  { vaultPath := vaultPath
    notes := notes
    forward := adj.forward
    backward := adj.backward
    missing := adj.missing
    fuzzyIndex := buildFuzzyIndex nfd notes }

/-- `fuzzyResolve` (src/graph.ts lines 89-94).  A JavaScript `if (key)`
treats the empty string as falsy, hence the emptiness test. -/
def fuzzyResolve (nfd : Str → Str) (name : Str) (st : GraphState) :
    Option Note :=
  match mapGet st.fuzzyIndex (normFuzzy nfd name) with
  | some key => if key = [] then none else mapGet st.notes key
  | none => none

/-- `resolve` (src/graph.ts lines 82-87): exact lookup first, fuzzy on miss. -/
def resolveNote (nfd : Str → Str) (name : Str) (st : GraphState) :
    Option Note :=
  match mapGet st.notes (normKey name) with
  | some n => some n
  | none => fuzzyResolve nfd name st

/-- Claim C1: for every collection of input notes, the graph returned by
`buildGraph` satisfies the adjacency-consistency invariant: for every
source `s` and target `t ∈ forward[s]`, either `t` is a note and
`s ∈ backward[t]`, or `t` is not a note and `s ∈ missing[t]`; the two
cases are mutually exclusive (the note-existence test decides them) and
exhaustive. -/
theorem claim_C1_adjacency_consistency (nfd : Str → Str) (vaultPath : Str)
    (l : List Note) (s t : Str)
    (ht : t ∈ (mapGet (buildGraphState nfd vaultPath l).forward s).getD []) :
    ((mapHas (buildGraphState nfd vaultPath l).notes t = true ∧
        s ∈ (mapGet (buildGraphState nfd vaultPath l).backward t).getD []) ∨
      (mapHas (buildGraphState nfd vaultPath l).notes t = false ∧
        s ∈ (mapGet (buildGraphState nfd vaultPath l).missing t).getD [])) ∧
    ¬((mapHas (buildGraphState nfd vaultPath l).notes t = true) ∧
      (mapHas (buildGraphState nfd vaultPath l).notes t = false)) := by
  constructor
  · exact buildAdjacency_consistent (buildNotesMap l) s t ht
  · rintro ⟨h₁, h₂⟩
    rw [h₁] at h₂
    cases h₂

def c1Note : Note :=
  { name := str "A"
    path := str "/v/A.md"
    content := []
    mtime := 0
    wikilinks :=
      [{ name := str "B", heading := none, aliasText := none, line := 1,
         embed := false }]
    frontmatterTags := []
    inlineTags := [] }

theorem claim_C1_adjacency_consistency_witness :
    (str "b") ∈
      (mapGet (buildGraphState id (str "/v") [c1Note]).forward (str "a")).getD [] ∧
    (((mapHas (buildGraphState id (str "/v") [c1Note]).notes (str "b") = true ∧
        (str "a") ∈ (mapGet (buildGraphState id (str "/v") [c1Note]).backward (str "b")).getD []) ∨
      (mapHas (buildGraphState id (str "/v") [c1Note]).notes (str "b") = false ∧
        (str "a") ∈ (mapGet (buildGraphState id (str "/v") [c1Note]).missing (str "b")).getD [])) ∧
    ¬((mapHas (buildGraphState id (str "/v") [c1Note]).notes (str "b") = true) ∧
      (mapHas (buildGraphState id (str "/v") [c1Note]).notes (str "b") = false))) :=
  ⟨by decide,
    claim_C1_adjacency_consistency id (str "/v") [c1Note] (str "a") (str "b")
      (by decide)⟩

/-! ### Claim C7: idempotence of normalization -/

theorem toNat_ofNat_of_lt (n : Nat) (h : n < 55296) : (Char.ofNat n).toNat = n := by
  unfold Char.ofNat
  rw [dif_pos (Or.inl h)]
  rfl

theorem jsLower_toNat (c : Char) (h : 65 ≤ c.toNat ∧ c.toNat ≤ 90) :
    (jsLower c).toNat = c.toNat + 32 := by
  unfold jsLower
  rw [if_pos h, toNat_ofNat_of_lt]
  omega

theorem jsLower_eq_self (c : Char) (h : ¬(65 ≤ c.toNat ∧ c.toNat ≤ 90)) :
    jsLower c = c := by
  unfold jsLower
  rw [if_neg h]

theorem jsLower_idem (c : Char) : jsLower (jsLower c) = jsLower c := by
  by_cases h : 65 ≤ c.toNat ∧ c.toNat ≤ 90
  · have h₂ := jsLower_toNat c h
    apply jsLower_eq_self
    omega
  · rw [jsLower_eq_self c h, jsLower_eq_self c h]

theorem isJsWs_jsLower (c : Char) : isJsWs (jsLower c) = isJsWs c := by
  by_cases h : 65 ≤ c.toNat ∧ c.toNat ≤ 90
  · have h₂ := jsLower_toNat c h
    simp only [isJsWs, decide_eq_decide]
    omega
  · rw [jsLower_eq_self c h]

theorem jsLower_toNat_le (c : Char) (h : c.toNat ≤ 127) :
    (jsLower c).toNat ≤ 127 := by
  by_cases h₂ : 65 ≤ c.toNat ∧ c.toNat ≤ 90
  · have := jsLower_toNat c h₂
    omega
  · rw [jsLower_eq_self c h₂]
    exact h

theorem jsLower_dash_iff (c : Char) :
    (jsLower c = '-' ∨ jsLower c = '_') ↔ (c = '-' ∨ c = '_') := by
  by_cases h : 65 ≤ c.toNat ∧ c.toNat ≤ 90
  · have h₂ := jsLower_toNat c h
    constructor
    · rintro (he | he) <;> rw [he] at h₂
      · have h45 : ('-').toNat = 45 := by decide
        exfalso
        rw [h45] at h₂
        omega
      · have h95 : ('_').toNat = 95 := by decide
        exfalso
        rw [h95] at h₂
        omega
    · rintro (he | he) <;> subst he <;> exact absurd h (by decide)
  · rw [jsLower_eq_self c h]

theorem jsLower_printable_iff (c : Char) :
    (32 ≤ (jsLower c).toNat ∧ (jsLower c).toNat ≤ 126) ↔
    (32 ≤ c.toNat ∧ c.toNat ≤ 126) := by
  by_cases h : 65 ≤ c.toNat ∧ c.toNat ≤ 90
  · have h₂ := jsLower_toNat c h
    omega
  · rw [jsLower_eq_self c h]

/-- `jsTrim` via Mathlib's `rdropWhile`. -/
theorem jsTrim_eq (s : Str) :
    jsTrim s = List.rdropWhile isJsWs (List.dropWhile isJsWs s) := rfl

theorem jsTrim_idem (s : Str) : jsTrim (jsTrim s) = jsTrim s := by
  rw [jsTrim_eq, jsTrim_eq]
  have hu : List.dropWhile isJsWs (List.dropWhile isJsWs s) =
      List.dropWhile isJsWs s := List.dropWhile_idempotent _ _
  set u := List.dropWhile isJsWs s with hudef
  have hdrop : List.dropWhile isJsWs (List.rdropWhile isJsWs u) =
      List.rdropWhile isJsWs u := by
    obtain ⟨t₂, ht⟩ := List.rdropWhile_prefix isJsWs u
    cases hr : List.rdropWhile isJsWs u with
    | nil => rfl
    | cons c r =>
      rw [hr] at ht
      have hc : isJsWs c = false := by
        by_contra hc
        have hc₂ : isJsWs c = true := by
          cases hcv : isJsWs c
          · exact absurd hcv hc
          · rfl
        rw [← ht] at hu
        simp only [List.cons_append, List.dropWhile_cons, hc₂, if_true] at hu
        have hlen : (List.dropWhile isJsWs (r ++ t₂)).length ≤ (r ++ t₂).length :=
          (List.dropWhile_suffix _).sublist.length_le
        have := congrArg List.length hu
        simp [List.length_append] at this hlen
        omega
      simp [List.dropWhile_cons, hc]
  rw [hdrop, List.rdropWhile_idempotent]

theorem isJsWs_comp_jsLower : isJsWs ∘ jsLower = isJsWs :=
  funext fun c => isJsWs_jsLower c

theorem dropWhile_lowerStr (s : Str) :
    List.dropWhile isJsWs (lowerStr s) = lowerStr (List.dropWhile isJsWs s) := by
  unfold lowerStr
  rw [List.dropWhile_map, isJsWs_comp_jsLower]

theorem rdropWhile_lowerStr (s : Str) :
    List.rdropWhile isJsWs (lowerStr s) = lowerStr (List.rdropWhile isJsWs s) := by
  unfold List.rdropWhile lowerStr
  rw [← List.map_reverse, List.dropWhile_map, isJsWs_comp_jsLower,
    ← List.map_reverse]

theorem jsTrim_lowerStr (s : Str) : jsTrim (lowerStr s) = lowerStr (jsTrim s) := by
  rw [jsTrim_eq, jsTrim_eq, dropWhile_lowerStr, rdropWhile_lowerStr]

theorem lowerStr_idem (s : Str) : lowerStr (lowerStr s) = lowerStr s := by
  unfold lowerStr
  rw [List.map_map]
  exact List.map_congr_left (fun c _ => jsLower_idem c)

/-- Exact-key normalization is idempotent. -/
theorem normKey_idem (x : Str) : normKey (normKey x) = normKey x := by
  unfold normKey
  rw [jsTrim_lowerStr, jsTrim_idem, lowerStr_idem]

theorem mem_jsTrim (s : Str) (c : Char) (h : c ∈ jsTrim s) : c ∈ s := by
  rw [jsTrim_eq] at h
  exact (List.dropWhile_suffix isJsWs).subset
    ((List.rdropWhile_prefix isJsWs _).subset h)

theorem stripDash_lowerStr (s : Str) :
    stripDashUnderscore (lowerStr s) = lowerStr (stripDashUnderscore s) := by
  unfold stripDashUnderscore lowerStr
  rw [List.filter_map]
  congr 1
  apply List.filter_congr
  intro c _
  simp only [Function.comp_apply, decide_eq_decide]
  exact not_congr (jsLower_dash_iff c)

theorem keepPrintable_lowerStr (s : Str) :
    keepPrintableAscii (lowerStr s) = lowerStr (keepPrintableAscii s) := by
  unfold keepPrintableAscii lowerStr
  rw [List.filter_map]
  congr 1
  apply List.filter_congr
  intro c _
  simp only [Function.comp_apply, decide_eq_decide]
  exact jsLower_printable_iff c

/-- Claim C7 (amended): exact normalization is idempotent for every string;
fuzzy normalization is idempotent for every ASCII string whose fuzzy form
is already trimmed (stripping `-`/`_` can expose leading or trailing
whitespace, and the leading `trim` of a second application then removes
it, so the condition is necessary — see the counterexample).  `nfd` is
any function that fixes ASCII strings, as Unicode NFD does. -/
theorem claim_C7_normalization_idempotence_amended :
    (∀ x : Str, normKey (normKey x) = normKey x) ∧
    (∀ (nfd : Str → Str) (x : Str),
      (∀ s : Str, (∀ c ∈ s, c.toNat ≤ 127) → nfd s = s) →
      (∀ c ∈ x, c.toNat ≤ 127) →
      jsTrim (normFuzzy nfd x) = normFuzzy nfd x →
      normFuzzy nfd (normFuzzy nfd x) = normFuzzy nfd x) := by
  constructor
  · exact normKey_idem
  · intro nfd x hnfd hx htrim
    -- the inner pre-NFD string of the first application is ASCII
    have hz : ∀ c ∈ stripDashUnderscore (lowerStr (jsTrim x)), c.toNat ≤ 127 := by
      intro c hc
      unfold stripDashUnderscore at hc
      have hc₂ := List.mem_of_mem_filter hc
      unfold lowerStr at hc₂
      obtain ⟨d, hd, hcd⟩ := List.mem_map.mp hc₂
      subst hcd
      exact jsLower_toNat_le d (hx d (mem_jsTrim x d hd))
    have hy : normFuzzy nfd x =
        keepPrintableAscii (stripDashUnderscore (lowerStr (jsTrim x))) := by
      unfold normFuzzy
      rw [hnfd _ hz]
    set y := normFuzzy nfd x with hydef
    -- characters of `y`
    have hyprint : ∀ c ∈ y, 32 ≤ c.toNat ∧ c.toNat ≤ 126 := by
      intro c hc
      rw [hy] at hc
      unfold keepPrintableAscii at hc
      have := List.of_mem_filter hc
      simpa using this
    have hynodash : ∀ c ∈ y, ¬(c = '-' ∨ c = '_') := by
      intro c hc
      rw [hy] at hc
      unfold keepPrintableAscii at hc
      have hc₂ := List.mem_of_mem_filter hc
      unfold stripDashUnderscore at hc₂
      have := List.of_mem_filter hc₂
      simpa using this
    have hylower : lowerStr y = y := by
      rw [hy, ← keepPrintable_lowerStr, ← stripDash_lowerStr, lowerStr_idem]
    have hystrip : stripDashUnderscore y = y := by
      unfold stripDashUnderscore
      apply List.filter_eq_self.mpr
      intro c hc
      simpa using hynodash c hc
    have hykeep : keepPrintableAscii y = y := by
      unfold keepPrintableAscii
      apply List.filter_eq_self.mpr
      intro c hc
      simpa using hyprint c hc
    have hynfd : nfd y = y := by
      apply hnfd
      intro c hc
      have := hyprint c hc
      omega
    calc normFuzzy nfd y
        = keepPrintableAscii (nfd (stripDashUnderscore (lowerStr (jsTrim y)))) := rfl
      _ = keepPrintableAscii (nfd (stripDashUnderscore (lowerStr y))) := by rw [htrim]
      _ = keepPrintableAscii (nfd (stripDashUnderscore y)) := by rw [hylower]
      _ = keepPrintableAscii (nfd y) := by rw [hystrip]
      _ = keepPrintableAscii y := by rw [hynfd]
      _ = y := hykeep

theorem claim_C7_normalization_idempotence_amended_witness :
    normKey (normKey (str " A ")) = normKey (str " A ") ∧
    normFuzzy id (normFuzzy id (str "A_b")) = normFuzzy id (str "A_b") :=
  ⟨claim_C7_normalization_idempotence_amended.1 (str " A "),
    claim_C7_normalization_idempotence_amended.2 id (str "A_b")
      (fun _ _ => rfl) (by decide) (by decide)⟩

/-- Claim C7 counterexample: fuzzy normalization is not idempotent as
claimed — on `"- a"` the dash strip exposes a leading space, so a second
application trims it: `normalizeFuzzy "- a" = " a"` but
`normalizeFuzzy " a" = "a"`.  (`nfd = id` is Unicode-NFD-correct on this
all-ASCII input.) -/
theorem claim_C7_fuzzy_not_idempotent :
    ¬ (normFuzzy id (normFuzzy id (str "- a")) = normFuzzy id (str "- a")) := by
  decide

/-! ### Traversal (src/graph.ts `traverse` / `processNeighbors`) -/

inductive LinkType where
  | wikilink
  | embed
deriving DecidableEq, Repr

structure TraverseNoteEntry where
  name : Str
  path : Str
  depth : Nat
  tags : List Str
  frontmatterTags : List Str
  inlineTags : List Str
  link_type : Option LinkType
deriving DecidableEq, Repr

structure TraverseMissingEntry where
  name : Str
  referenced_by : List Str
deriving DecidableEq, Repr

inductive RootInfo where
  | single (root : Str)
  | multi (roots : List Str)
deriving DecidableEq, Repr

inductive TraverseResult where
  | err (msg : Str) (notes : List TraverseNoteEntry)
      (missing : List TraverseMissingEntry)
  | ok (roots : RootInfo) (depth : Nat) (notes : List TraverseNoteEntry)
      (missing : List TraverseMissingEntry)
deriving DecidableEq, Repr

def apoChar : Char := Char.ofNat 39

/-- The TypeScript template literal `Note {n} not found`. -/
def notFoundMsg (n : Str) : Str :=
  str "Note " ++ [apoChar] ++ n ++ [apoChar] ++ str " not found"

/-- `path.endsWith("/") ? path : path + "/"` (src/filter.ts). -/
def ensureTrailingSlash (p : Str) : Str :=
  if p.getLast? = some '/' then p else p ++ ['/']

/-- The root-resolution loop of `traverse` (src/graph.ts lines 466-477):
fail fast on the first unresolvable name. -/
def resolveAll (nfd : Str → Str) (st : GraphState) :
    List Str → Except Str (List Note)
  | [] => .ok []
  | n :: rest =>
    match resolveNote nfd n st with
    | none => .error n
    | some note =>
      match resolveAll nfd st rest with
      | .error e => .error e
      | .ok l => .ok (note :: l)

/-- One neighbor-processing step (src/graph.ts `processNeighbors`):
returns the queue pushes plus the updated link-type map and missing set. -/
def processNeighbors (state : GraphState) (sourceKey : Str) (depth : Nat)
    (exclPre : List Str) (linkTypes : JsMap LinkType)
    (missingFound : List Str) :
    List (Str × Nat) × JsMap LinkType × List Str :=
  match mapGet state.notes sourceKey with
  | none => ([], linkTypes, missingFound)
  | some sourceNote =>
    match mapGet state.forward sourceKey with
    | none => ([], linkTypes, missingFound)
    | some targets =>
      targets.foldl
        (fun acc target =>
          let (pushes, lt, mf) := acc
          if ¬ mapHas state.notes target then
            (pushes, lt, setAdd mf target)
          else if !exclPre.isEmpty &&
              (match mapGet state.notes target with
                | some tn => exclPre.any
                    (fun p => jsStartsWith
                      (tn.path.drop (state.vaultPath.length + 1)) p)
                | none => false) then
            (pushes, lt, mf)
          else
            let lt₂ :=
              if mapHas lt target then lt
              else
                match sourceNote.wikilinks.find?
                    (fun w => normKey w.name == target) with
                | some wl =>
                  mapSet lt target (if wl.embed then .embed else .wikilink)
                | none => lt
            (pushes ++ [(target, depth + 1)], lt₂, mf))
        ([], linkTypes, missingFound)

/-- Note keys not yet visited: the termination measure of the BFS loop. -/
def unvisitedCount (state : GraphState) (visited : JsMap Nat) : Nat :=
  ((state.notes.map Prod.fst).filter (fun k => ¬ mapHas visited k)).length

theorem filter_length_mono {α : Type} (l : List α) (p q : α → Bool)
    (h : ∀ x, q x = true → p x = true) :
    (l.filter q).length ≤ (l.filter p).length := by
  induction l with
  | nil => simp
  | cons hd tl ih =>
    by_cases hq : q hd
    · simp [List.filter_cons, hq, h hd hq]
      omega
    · simp only [List.filter_cons, hq, cond_false]
      by_cases hp : p hd <;> simp [hp] <;> omega

theorem filter_length_strict {α : Type} (l : List α) (p q : α → Bool)
    (h : ∀ x, q x = true → p x = true) (x₀ : α) (hx : x₀ ∈ l)
    (hpx : p x₀ = true) (hqx : q x₀ = false) :
    (l.filter q).length < (l.filter p).length := by
  induction l with
  | nil => cases hx
  | cons hd tl ih =>
    rcases List.mem_cons.mp hx with he | he
    · subst he
      simp [List.filter_cons, hpx, hqx]
      have := filter_length_mono tl p q h
      omega
    · by_cases hq : q hd = true
      · have hp := h hd hq
        have := ih he
        simp [List.filter_cons, hq, hp]
        omega
      · have hqf : q hd = false := bool_eq_false _ hq
        have := ih he
        by_cases hp : p hd = true
        · simp [List.filter_cons, hqf, hp]
          omega
        · have hpf : p hd = false := bool_eq_false _ hp
          simp [List.filter_cons, hqf, hpf]
          omega

theorem mapHas_mapSet {α : Type} (m : JsMap α) (k k₂ : Str) (v : α) :
    mapHas (mapSet m k v) k₂ = (k₂ = k || mapHas m k₂) := by
  by_cases h : k = k₂
  · subst h
    simp [mapHas, mapGet_mapSet_self]
  · rw [mapHas, mapGet_mapSet_ne _ _ _ _ h]
    have : ¬ (k₂ = k) := fun he => h he.symm
    simp [this, mapHas]

theorem unvisitedCount_le (state : GraphState) (visited : JsMap Nat)
    (key : Str) (d : Nat) :
    unvisitedCount state (mapSet visited key d) ≤ unvisitedCount state visited := by
  apply filter_length_mono
  intro x hx
  simp only [decide_eq_true_eq] at hx ⊢
  intro hhas
  exact hx (by rw [mapHas_mapSet]; simp [hhas])

theorem mem_mapKeys_of_mapHas {α : Type} (m : JsMap α) (k : Str)
    (h : mapHas m k = true) : k ∈ mapKeys m := by
  by_contra hc
  have hn := (mapGet_eq_none_iff m k).mpr hc
  unfold mapHas at h
  rw [hn] at h
  cases h

theorem unvisitedCount_lt (state : GraphState) (visited : JsMap Nat)
    (key : Str) (d : Nat) (hkey : mapHas state.notes key = true)
    (hnv : mapHas visited key = false) :
    unvisitedCount state (mapSet visited key d) < unvisitedCount state visited := by
  refine filter_length_strict _ _ _ ?_ key ?_ ?_ ?_
  · intro x hx
    simp only [decide_eq_true_eq] at hx ⊢
    intro hhas
    exact hx (by rw [mapHas_mapSet]; simp [hhas])
  · exact mem_mapKeys_of_mapHas state.notes key hkey
  · simp [hnv]
  · simp [mapHas_mapSet]

theorem processNeighbors_none (state : GraphState) (sourceKey : Str)
    (depth : Nat) (exclPre : List Str) (lt : JsMap LinkType)
    (mf : List Str) (h : mapGet state.notes sourceKey = none) :
    processNeighbors state sourceKey depth exclPre lt mf = ([], lt, mf) := by
  unfold processNeighbors
  rw [h]

theorem unvisitedCount_eq_of_not_note (state : GraphState)
    (visited : JsMap Nat) (key : Str) (d : Nat)
    (hk : mapGet state.notes key = none) :
    unvisitedCount state (mapSet visited key d) = unvisitedCount state visited := by
  unfold unvisitedCount
  apply congrArg List.length
  apply List.filter_congr
  intro x hx
  have hxk : ¬ (x = key) := fun he =>
    (mapGet_eq_none_iff state.notes key).mp hk (he ▸ hx)
  simp [mapHas_mapSet, hxk]



/-- The BFS loop of `traverse` (src/graph.ts lines 492-509).  The
JavaScript version walks a growing array with a head index; consuming the
head of a queue list and appending pushes is the same process. -/
def bfsLoop (state : GraphState) (maxDepth : Nat) (exclPre : List Str) :
    List (Str × Nat) → JsMap Nat → JsMap LinkType → List Str →
    JsMap Nat × JsMap LinkType × List Str
  | [], visited, lt, mf => (visited, lt, mf)
  | (key, depth) :: rest, visited, lt, mf =>
    if h : mapHas visited key then
      bfsLoop state maxDepth exclPre rest visited lt mf
    else
      let visited₂ := mapSet visited key depth
      if depth < maxDepth then
        match hpn : processNeighbors state key depth exclPre lt mf with
        | (pushes, lt₂, mf₂) =>
          bfsLoop state maxDepth exclPre (rest ++ pushes) visited₂ lt₂ mf₂
      else
        bfsLoop state maxDepth exclPre rest visited₂ lt mf
termination_by queue visited _ _ => (unvisitedCount state visited, queue.length)
decreasing_by
  · apply Prod.Lex.right
    simp
  · by_cases hk : mapHas state.notes key = true
    · exact Prod.Lex.left _ _
        (unvisitedCount_lt state visited key depth hk
          (bool_eq_false _ h))
    · have hnone : mapGet state.notes key = none := by
        unfold mapHas at hk
        cases hg : mapGet state.notes key
        · rfl
        · rw [hg] at hk
          simp at hk
      have hpush : ([] : List (Str × Nat)) = pushes := by
        rw [processNeighbors_none state key depth exclPre lt mf hnone] at hpn
        exact congrArg Prod.fst hpn
      rw [unvisitedCount_eq_of_not_note state visited key depth hnone]
      apply Prod.Lex.right
      rw [← hpush]
      simp
  · by_cases hk : mapHas state.notes key = true
    · exact Prod.Lex.left _ _
        (unvisitedCount_lt state visited key depth hk
          (bool_eq_false _ h))
    · have hnone : mapGet state.notes key = none := by
        unfold mapHas at hk
        cases hg : mapGet state.notes key
        · rfl
        · rw [hg] at hk
          simp at hk
      rw [unvisitedCount_eq_of_not_note state visited key depth hnone]
      apply Prod.Lex.right
      simp

/-- Strict lexicographic order on strings by code point (the model of a
`localeCompare`-negative comparison for the ASCII names used here). -/
def strLtB : Str → Str → Bool
  | [], [] => false
  | [], _ :: _ => true
  | _ :: _, [] => false
  | a :: as, b :: bs =>
    if a.toNat < b.toNat then true
    else if b.toNat < a.toNat then false
    else strLtB as bs

def entryLtB (a b : TraverseNoteEntry) : Bool :=
  a.depth < b.depth || (a.depth == b.depth && strLtB a.name b.name)

/-- Stable insertion used to model `Array.prototype.sort` (which is
stable): an element moves past exactly the elements strictly before it. -/
def insSorted {α : Type} (lt : α → α → Bool) (x : α) : List α → List α
  | [] => [x]
  | y :: ys => if lt y x then y :: insSorted lt x ys else x :: y :: ys

def sortStable {α : Type} (lt : α → α → Bool) (l : List α) : List α :=
  l.foldr (insSorted lt) []

/-- `traverse` (src/graph.ts lines 457-543) minus the transport layer.
`noteName` is `string | string[]` in the source; the missing-note lookup
`state.notes.get(key)!` is a non-null assertion there, rendered here as a
`filterMap` (the key is always present for states produced by
`buildGraph`). -/
def traverse (nfd : Str → Str) (noteName : Str ⊕ List Str) (maxDepth : Nat)
    (state : GraphState) (exclFolders : List Str) : TraverseResult :=
  let names := match noteName with | .inl n => [n] | .inr l => l
  match resolveAll nfd state names with
  | .error n => .err (notFoundMsg n) [] []
  | .ok startNotes =>
    let exclPre := exclFolders.map ensureTrailingSlash
    let queue₀ := startNotes.map (fun note => (normKey note.name, 0))
    match bfsLoop state maxDepth exclPre queue₀ [] [] [] with
    | (visited, linkTypes, missingFound) =>
      let entries := visited.filterMap (fun kv =>
        (mapGet state.notes kv.1).map (fun note =>
          ({ name := note.name, path := note.path, depth := kv.2,
             tags := allTags note, frontmatterTags := note.frontmatterTags,
             inlineTags := note.inlineTags,
             link_type := mapGet linkTypes kv.1 } : TraverseNoteEntry)))
      let notesSorted := sortStable entryLtB entries
      let missingRes := missingFound.map (fun name =>
        ({ name := name,
           referenced_by := (mapGet state.missing name).getD [] } :
          TraverseMissingEntry))
      .ok
        (match noteName with
          | .inl _ => .single ((startNotes.map Note.name).headD [])
          | .inr _ => .multi (startNotes.map Note.name))
        maxDepth notesSorted missingRes

/-! ### Claim C5: traverse on unresolvable roots -/

theorem resolveAll_error (nfd : Str → Str) (st : GraphState) (pre : List Str)
    (n : Str) (post : List Str)
    (hpre : ∀ m ∈ pre, resolveNote nfd m st ≠ none)
    (hn : resolveNote nfd n st = none) :
    resolveAll nfd st (pre ++ n :: post) = .error n := by
  induction pre with
  | nil =>
    simp only [List.nil_append]
    unfold resolveAll
    rw [hn]
  | cons m pre ih =>
    have hm := hpre m (List.mem_cons_self _ _)
    cases hg : resolveNote nfd m st with
    | none => exact absurd hg hm
    | some note =>
      simp only [List.cons_append]
      unfold resolveAll
      rw [hg, ih (fun m₂ hm₂ => hpre m₂ (List.mem_cons_of_mem _ hm₂))]

/-- Claim C5: a root name that neither exact nor fuzzy resolution can
resolve makes `traverse` return the structured error value carrying that
name, with empty notes and missing lists; with multiple roots the call
fails fast on the first unresolvable root and performs no traversal. -/
theorem claim_C5_traverse_unresolvable_root :
    (∀ (nfd : Str → Str) (st : GraphState) (maxDepth : Nat)
        (excl : List Str) (n : Str),
      resolveNote nfd n st = none →
      traverse nfd (.inl n) maxDepth st excl = .err (notFoundMsg n) [] []) ∧
    (∀ (nfd : Str → Str) (st : GraphState) (maxDepth : Nat)
        (excl : List Str) (pre : List Str) (n : Str) (post : List Str),
      (∀ m ∈ pre, resolveNote nfd m st ≠ none) →
      resolveNote nfd n st = none →
      traverse nfd (.inr (pre ++ n :: post)) maxDepth st excl =
        .err (notFoundMsg n) [] []) := by
  constructor
  · intro nfd st maxDepth excl n hn
    unfold traverse
    have h₂ : resolveAll nfd st [n] = .error n := by
      unfold resolveAll
      rw [hn]
    simp only [h₂]
  · intro nfd st maxDepth excl pre n post hpre hn
    unfold traverse
    simp only [resolveAll_error nfd st pre n post hpre hn]

theorem claim_C5_traverse_unresolvable_root_witness :
    traverse id (.inl (str "ghost")) 2 (buildGraphState id (str "/v") [c1Note])
        [] =
      .err (notFoundMsg (str "ghost")) [] [] ∧
    traverse id (.inr [str "A", str "ghost"]) 2
        (buildGraphState id (str "/v") [c1Note]) [] =
      .err (notFoundMsg (str "ghost")) [] [] :=
  ⟨claim_C5_traverse_unresolvable_root.1 id _ 2 [] _ (by decide),
    claim_C5_traverse_unresolvable_root.2 id _ 2 [] [str "A"] (str "ghost") []
      (by decide) (by decide)⟩

/-! ### Claim C4: resolution order and the fuzzy fallback -/

theorem buildFuzzyIndex_fold (nfd : Str → Str) (l : List (Str × Note))
    (fi : JsMap Str) (fk : Str) :
    mapGet
        (l.foldl
          (fun fi kv =>
            if mapHas fi (normFuzzy nfd kv.2.name) then fi
            else mapSet fi (normFuzzy nfd kv.2.name) kv.1)
          fi) fk =
      match mapGet fi fk with
      | some v => some v
      | none =>
        (l.find? (fun kv => decide (normFuzzy nfd kv.2.name = fk))).map
          Prod.fst := by
  induction l generalizing fi with
  | nil =>
    cases hg : mapGet fi fk <;> simp [hg]
  | cons kv l ih =>
    simp only [List.foldl_cons]
    rw [ih]
    cases hg : mapGet fi fk with
    | some v =>
      have hstep : mapGet
          (if mapHas fi (normFuzzy nfd kv.2.name) then fi
            else mapSet fi (normFuzzy nfd kv.2.name) kv.1) fk = some v := by
        by_cases hh : mapHas fi (normFuzzy nfd kv.2.name) = true
        · rw [if_pos hh, hg]
        · rw [if_neg hh]
          have hne : normFuzzy nfd kv.2.name ≠ fk := by
            intro he
            rw [he] at hh
            exact hh (by unfold mapHas; rw [hg]; rfl)
          rw [mapGet_mapSet_ne _ _ _ _ hne, hg]
      rw [hstep]
    | none =>
      by_cases hfk : normFuzzy nfd kv.2.name = fk
      · have hh : mapHas fi (normFuzzy nfd kv.2.name) = false := by
          rw [hfk]
          unfold mapHas
          rw [hg]
          rfl
        rw [if_neg (by rw [hh]; intro hc; cases hc), hfk, mapGet_mapSet_self]
        rw [List.find?_cons_of_pos _ (by simp [hfk])]
        rfl
      · have hstep : mapGet
            (if mapHas fi (normFuzzy nfd kv.2.name) then fi
              else mapSet fi (normFuzzy nfd kv.2.name) kv.1) fk = none := by
          by_cases hh : mapHas fi (normFuzzy nfd kv.2.name) = true
          · rw [if_pos hh, hg]
          · rw [if_neg hh, mapGet_mapSet_ne _ _ _ _ hfk, hg]
        rw [hstep, List.find?_cons_of_neg _ (by simp [hfk])]

def c4note : Note :=
  { name := str "Note_With_Dashes"
    path := str "/v/Note_With_Dashes.md"
    content := []
    mtime := 0
    wikilinks := []
    frontmatterTags := []
    inlineTags := [] }

def c4state : GraphState := buildGraphState id (str "/v") [c4note]

/-- Claim C4 counterexample: the note `Note_With_Dashes` is present in the
graph, yet `resolve("note with dashes")` returns not-found — fuzzy
normalization strips `-`/`_` but not spaces, so the spaced query's fuzzy
form `"note with dashes"` never matches the stored `"notewithdashes"`. -/
theorem claim_C4_spaced_query_does_not_resolve :
    mapGet c4state.notes (normKey (str "Note_With_Dashes")) = some c4note ∧
    resolveNote id (str "note with dashes") c4state = none := by
  constructor
  · decide
  · decide

/-- Claim C4 (amended): `resolve` returns the note stored under the exact
normalized key when one exists; only on an exact miss does it consult the
fuzzy index, which yields at most one note — the first one registered in
build order for that fuzzy-normalized form.  A note named
`Note_With_Dashes` is resolved by the query `Note-With-Dashes` (and any
case/dash/underscore variant without added spaces), but NOT by
`note with dashes`, since spaces are not stripped by fuzzy normalization;
`resolve("NoteZ")` returns not-found. -/
theorem claim_C4_resolution_order_amended :
    (∀ (nfd : Str → Str) (st : GraphState) (name : Str) (n : Note),
      mapGet st.notes (normKey name) = some n →
      resolveNote nfd name st = some n) ∧
    (∀ (nfd : Str → Str) (st : GraphState) (name : Str),
      mapGet st.notes (normKey name) = none →
      resolveNote nfd name st = fuzzyResolve nfd name st) ∧
    (∀ (nfd : Str → Str) (l : List (Str × Note)) (fk : Str),
      mapGet (buildFuzzyIndex nfd l) fk =
        (l.find? (fun kv => decide (normFuzzy nfd kv.2.name = fk))).map
          Prod.fst) ∧
    resolveNote id (str "Note-With-Dashes") c4state = some c4note ∧
    resolveNote id (str "NoteZ") c4state = none ∧
    resolveNote id (str "note with dashes") c4state = none := by
  refine ⟨?_, ?_, ?_, by decide, by decide, by decide⟩
  · intro nfd st name n h
    unfold resolveNote
    rw [h]
  · intro nfd st name h
    unfold resolveNote
    rw [h]
  · intro nfd l fk
    unfold buildFuzzyIndex
    rw [buildFuzzyIndex_fold]
    rfl

theorem claim_C4_resolution_order_amended_witness :
    resolveNote id (str "Note_With_Dashes") c4state = some c4note :=
  claim_C4_resolution_order_amended.1 id c4state (str "Note_With_Dashes")
    c4note (by decide)

/-! ### Filter and pagination (src/filter.ts).  The regular-expression
engine and `Date` parsing are external: `rc : Str → Option (Str → Bool)`
models `new RegExp(p, "i")` (`none` = the constructor throws, otherwise
the compiled test), and `pd : Str → Option Int` models `new Date(s)`
(`none` = Invalid Date, whose comparisons are all false). -/

inductive TagsMode where
  | anyMode
  | allMode
deriving DecidableEq, Repr

structure QueryOpts where
  limit : Option Nat := none
  offset : Option Nat := none
  folder : Option Str := none
  excludeFolders : Option (List Str) := none
  excludePattern : Option Str := none
  modifiedAfter : Option Str := none
  modifiedBefore : Option Str := none
  tags : Option (List Str) := none
  excludeTags : Option (List Str) := none
  tagsMode : Option TagsMode := none

structure CompiledFilter where
  folder : Option Str
  excludeFolders : Option (List Str)
  excludeRe : Option (Str → Bool)
  modifiedAfter : Option (Option Int)
  modifiedBefore : Option (Option Int)
  tagSet : Option (List Str)
  excludeTagSet : Option (List Str)
  tagsMode : TagsMode

/-- `compileExcludePattern` (src/filter.ts lines 37-44): `!pattern` is
true for an absent or empty pattern; an invalid pattern compiles to
`undefined`. -/
def compileExcludePattern (rc : Str → Option (Str → Bool))
    (pattern : Option Str) : Option (Str → Bool) :=
  match pattern with
  | none => none
  | some p => if p.isEmpty then none else rc p

/-- `t.replace(/^#/, "")`. -/
def stripLeadHash : Str → Str
  | '#' :: rest => rest
  | s => s

def normalizeTagSet (tags : Option (List Str)) : Option (List Str) :=
  match tags with
  | none => none
  | some l =>
    if l.isEmpty then none
    else some (dedupFirst (l.map (fun t => lowerStr (stripLeadHash t))))

/-- `opts.modifiedAfter ? new Date(opts.modifiedAfter) : undefined` — an
empty string is falsy; an unparsable date is an Invalid Date (`some none`). -/
def compileDateBound (pd : Str → Option Int) (s : Option Str) :
    Option (Option Int) :=
  match s with
  | none => none
  | some v => if v.isEmpty then none else some (pd v)

def compileFilter (rc : Str → Option (Str → Bool)) (pd : Str → Option Int)
    (opts : QueryOpts) : CompiledFilter :=
  { folder := opts.folder
    excludeFolders := opts.excludeFolders
    excludeRe := compileExcludePattern rc opts.excludePattern
    modifiedAfter := compileDateBound pd opts.modifiedAfter
    modifiedBefore := compileDateBound pd opts.modifiedBefore
    tagSet := normalizeTagSet opts.tags
    excludeTagSet := normalizeTagSet opts.excludeTags
    tagsMode := opts.tagsMode.getD .anyMode }

structure PaginatedResult (α : Type) where
  total : Nat
  offset : Nat
  limit : Nat
  results : List α
deriving DecidableEq, Repr

/-- `paginate` (src/filter.ts lines 68-80): `results` is
`items.slice(offset, offset + limit)`. -/
def paginate {α : Type} (items : List α) (opts : QueryOpts) :
    PaginatedResult α :=
  { total := items.length
    offset := opts.offset.getD 0
    limit := opts.limit.getD 50
    results := (items.drop (opts.offset.getD 0)).take (opts.limit.getD 50) }

def isNoteInFolder (note : Note) (vaultPath folderPre : Str) : Bool :=
  jsStartsWith (note.path.drop (vaultPath.length + 1))
    (ensureTrailingSlash folderPre)

def isNoteInExcludedFolder (note : Note) (vaultPath : Str)
    (excl : List Str) : Bool :=
  excl.any (fun f =>
    jsStartsWith (note.path.drop (vaultPath.length + 1))
      (ensureTrailingSlash f))

def passesExcludePattern (noteName : Str) (re : Option (Str → Bool)) : Bool :=
  match re with
  | none => true
  | some t => ! t noteName

/-- Invalid-Date-aware `<` on `mtime` (`NaN` comparisons are false). -/
def jsDateLt (t : Int) (d : Option Int) : Bool :=
  match d with
  | some v => t < v
  | none => false

def jsDateGt (t : Int) (d : Option Int) : Bool :=
  match d with
  | some v => v < t
  | none => false

def hasMatchingTag (note : Note) (tagSet : List Str) : Bool :=
  note.frontmatterTags.any (fun t => decide (lowerStr t ∈ tagSet)) ||
  note.inlineTags.any (fun t => decide (lowerStr t ∈ tagSet))

def hasAllTags (note : Note) (tagSet : List Str) : Bool :=
  let noteTags := note.frontmatterTags.map lowerStr ++
    note.inlineTags.map lowerStr
  tagSet.all (fun tag => decide (tag ∈ noteTags))

def matchesTags (note : Note) (tagSet : List Str) (mode : TagsMode) : Bool :=
  match mode with
  | .allMode => hasAllTags note tagSet
  | .anyMode => hasMatchingTag note tagSet

/-- `passesCompiledFilter` (src/filter.ts lines 138-155); a `cf.folder`
holding the empty string is falsy in the source's `if (cf.folder ...)`. -/
def passesCompiledFilter (note : Note) (vaultPath : Str)
    (cf : CompiledFilter) : Bool :=
  if (match cf.folder with
      | some f => !f.isEmpty && !isNoteInFolder note vaultPath f
      | none => false) then false
  else if (match cf.excludeFolders with
      | some l => isNoteInExcludedFolder note vaultPath l
      | none => false) then false
  else if !passesExcludePattern note.name cf.excludeRe then false
  else if (match cf.modifiedAfter with
      | some d => jsDateLt note.mtime d
      | none => false) then false
  else if (match cf.modifiedBefore with
      | some d => jsDateGt note.mtime d
      | none => false) then false
  else if (match cf.tagSet with
      | some ts => !matchesTags note ts cf.tagsMode
      | none => false) then false
  else if (match cf.excludeTagSet with
      | some ts => hasMatchingTag note ts
      | none => false) then false
  else true

def filterNotes (rc : Str → Option (Str → Bool)) (pd : Str → Option Int)
    (notes : JsMap Note) (vaultPath : Str) (opts : QueryOpts) : JsMap Note :=
  let cf := compileFilter rc pd opts
  notes.filter (fun kv => passesCompiledFilter kv.2 vaultPath cf)

/-! ### Backlinks (src/graph.ts `backlinks` / `filterBacklinkRef`) -/

def backlinkRefChecks (n : Option Note) (name : Str) (path : Option Str)
    (vaultPath : Str) (cf : CompiledFilter) : Option (Str × Option Str) :=
  match n with
  | none =>
    if passesExcludePattern name cf.excludeRe then some (name, path) else none
  | some note =>
    if passesCompiledFilter note vaultPath cf then some (name, path) else none

def filterBacklinkRef (refKey : Str) (state : GraphState)
    (folder : Option Str) (cf : CompiledFilter) : Option (Str × Option Str) :=
  let n := mapGet state.notes refKey
  let name := match n with | some note => note.name | none => refKey
  let path : Option Str := match n with
    | some note => some note.path
    | none => none
  match folder with
  | some f =>
    if f.isEmpty then backlinkRefChecks n name path state.vaultPath cf
    else
      match path with
      | none => some (name, none)
      | some p =>
        if jsStartsWith (p.drop (state.vaultPath.length + 1))
            (ensureTrailingSlash f) then
          backlinkRefChecks n name path state.vaultPath cf
        else none
  | none => backlinkRefChecks n name path state.vaultPath cf

/-- `backlinks` (src/graph.ts lines 158-187).  The compiled filter is
built without the `folder` option, which `filterBacklinkRef` handles
itself. -/
def backlinks (rc : Str → Option (Str → Bool)) (pd : Str → Option Int)
    (nfd : Str → Str) (noteName : Str) (state : GraphState)
    (opts : QueryOpts) : PaginatedResult (Str × Option Str) :=
  match resolveNote nfd noteName state with
  | none => paginate [] opts
  | some note =>
    let key := normKey note.name
    match mapGet state.backward key with
    | none => paginate [] opts
    | some refs =>
      let cf := compileFilter rc pd { opts with folder := none }
      let all := refs.filterMap
        (fun refKey => filterBacklinkRef refKey state opts.folder cf)
      let sorted := sortStable (fun a b => strLtB a.1 b.1) all
      paginate sorted opts

/-! ### Orphans (src/graph.ts `orphans`) -/

/-- `content.split(/\r?\n/)`: the accumulator holds the current line in
reverse; a `\r` immediately before `\n` belongs to the separator. -/
def splitLinesGo (cur : Str) : Str → List Str
  | [] => [cur.reverse]
  | c :: rest =>
    if c = '\n' then
      (match cur with
        | '\r' :: curRest => curRest.reverse
        | _ => cur.reverse) :: splitLinesGo [] rest
    else splitLinesGo (c :: cur) rest

def splitLines (s : Str) : List Str := splitLinesGo [] s

/-- The closing-delimiter scan of `stripFrontmatterLines`
(src/markdown.ts lines 135-143). -/
def stripFmGo : List Str → Option (List Str)
  | [] => none
  | l :: rest =>
    if l = str "---" ∨ l = str "---" ++ ['\r'] then some rest
    else stripFmGo rest

def stripFmLines (lines : List Str) : List Str :=
  match lines with
  | [] => []
  | first :: rest =>
    if first = str "---" then
      match stripFmGo rest with
      | some after => after
      | none => lines
    else lines

def joinLines : List Str → Str
  | [] => []
  | [l] => l
  | l :: rest => l ++ '\n' :: joinLines rest

structure OrphanEntry where
  name : Str
  path : Str
  tags : List Str
  frontmatterTags : List Str
  inlineTags : List Str
  content_length : Nat
  empty : Bool
deriving DecidableEq, Repr

def mkOrphanEntry (note : Note) : OrphanEntry :=
  let bodyLines := stripFmLines (splitLines note.content)
  let bodyText := jsTrim (joinLines bodyLines)
  { name := note.name
    path := note.path
    tags := allTags note
    frontmatterTags := note.frontmatterTags
    inlineTags := note.inlineTags
    content_length := note.content.length
    empty := bodyText.isEmpty }

/-- `orphans` (src/graph.ts lines 215-268), including the short-circuit:
"If excludePattern was provided but didn't compile, return empty". -/
def orphans (rc : Str → Option (Str → Bool)) (pd : Str → Option Int)
    (state : GraphState) (opts : QueryOpts) : PaginatedResult OrphanEntry :=
  let cf := compileFilter rc pd opts
  if (match opts.excludePattern with
      | some p => !p.isEmpty
      | none => false) && cf.excludeRe.isNone then
    { total := 0
      offset := opts.offset.getD 0
      limit := opts.limit.getD 50
      results := [] }
  else
    let orphanList := state.notes.filterMap (fun kv =>
      if ¬ passesCompiledFilter kv.2 state.vaultPath cf then none
      else
        match mapGet state.backward kv.1 with
        | some refs =>
          if refs.isEmpty then some (mkOrphanEntry kv.2) else none
        | none => some (mkOrphanEntry kv.2))
    let sorted := sortStable (fun a b => strLtB a.name b.name) orphanList
    paginate sorted opts

/-! ### Claim C10: backlinks on an unknown name -/

/-- Claim C10: when the name resolves to no note, or to a note with no
backward entry, `backlinks` returns an ordinary paginated result with
total 0 and empty results — not an error and not an exception.  (The
embedding is a pure function of the state, so the state itself is
untouched by construction.) -/
theorem claim_C10_backlinks_unknown_name
    (rc : Str → Option (Str → Bool)) (pd : Str → Option Int)
    (nfd : Str → Str) (noteName : Str) (state : GraphState)
    (opts : QueryOpts)
    (h : resolveNote nfd noteName state = none ∨
      (∃ note, resolveNote nfd noteName state = some note ∧
        mapGet state.backward (normKey note.name) = none)) :
    backlinks rc pd nfd noteName state opts =
      { total := 0, offset := opts.offset.getD 0,
        limit := opts.limit.getD 50, results := [] } := by
  rcases h with h₁ | ⟨note, h₁, h₂⟩
  · unfold backlinks
    rw [h₁]
    simp [paginate]
  · unfold backlinks
    rw [h₁]
    simp only [h₂]
    simp [paginate]

theorem claim_C10_backlinks_unknown_name_witness :
    backlinks (fun _ => none) (fun _ => none) id (str "zzz")
        (buildGraphState id (str "/v") []) {} =
      { total := 0, offset := 0, limit := 50, results := [] } :=
  claim_C10_backlinks_unknown_name (fun _ => none) (fun _ => none) id
    (str "zzz") (buildGraphState id (str "/v") []) {} (Or.inl (by decide))

/-! ### Claim C3: graceful degradation of invalid filter options -/

/-- Claim C3 counterexample: `orphans` violates the claim — with a single
invalid exclude pattern it returns an artificially empty result, although
the same graph has one orphan when the option is omitted.  (`rc` maps
every pattern to `none`, modelling `new RegExp` throwing on this
pattern.) -/
theorem claim_C3_orphans_bad_regex_empties_result :
    (orphans (fun _ => none) (fun _ => none) c4state
        { excludePattern := some (str "[") }).total = 0 ∧
    (orphans (fun _ => none) (fun _ => none) c4state
        { excludePattern := some (str "[") }).results = [] ∧
    (orphans (fun _ => none) (fun _ => none) c4state {}).total = 1 := by
  refine ⟨by decide, by decide, by decide⟩

theorem passes_invalid_after (note : Note) (vp : Str) (cf : CompiledFilter) :
    passesCompiledFilter note vp { cf with modifiedAfter := some none } =
    passesCompiledFilter note vp { cf with modifiedAfter := none } := by
  unfold passesCompiledFilter
  simp [jsDateLt]

/-- Claim C3 (amended): an unparsable date string deactivates only that
one option (shown for `orphans`); an invalid exclude-name regex
deactivates only that option for the other query operations (shown for
`backlinks`); but `orphans` is the exception for the exclude pattern: a
non-empty pattern that fails to compile short-circuits it to an empty
result. -/
theorem claim_C3_invalid_filter_amended :
    (∀ (rc : Str → Option (Str → Bool)) (pd : Str → Option Int)
        (state : GraphState) (opts : QueryOpts) (s : Str),
      opts.modifiedAfter = some s → ¬ s.isEmpty = true → pd s = none →
      orphans rc pd state opts =
        orphans rc pd state { opts with modifiedAfter := none }) ∧
    (∀ (rc : Str → Option (Str → Bool)) (pd : Str → Option Int)
        (nfd : Str → Str) (name : Str) (state : GraphState)
        (opts : QueryOpts) (p : Str),
      opts.excludePattern = some p → rc p = none →
      backlinks rc pd nfd name state opts =
        backlinks rc pd nfd name state { opts with excludePattern := none }) ∧
    (∀ (rc : Str → Option (Str → Bool)) (pd : Str → Option Int)
        (state : GraphState) (opts : QueryOpts) (p : Str),
      opts.excludePattern = some p → ¬ p.isEmpty = true → rc p = none →
      orphans rc pd state opts =
        { total := 0, offset := opts.offset.getD 0,
          limit := opts.limit.getD 50, results := [] }) := by
  refine ⟨?_, ?_, ?_⟩
  · intro rc pd state opts s hs hsne hpd
    have hcf : compileFilter rc pd opts =
        { compileFilter rc pd { opts with modifiedAfter := none } with
          modifiedAfter := some none } := by
      simp [compileFilter, compileDateBound, hs, hsne, hpd]
    unfold orphans
    rw [hcf]
    simp only [passes_invalid_after]
    rfl
  · intro rc pd nfd name state opts p hp hrc
    have hcf : compileFilter rc pd { opts with folder := none } =
        compileFilter rc pd
          { opts with excludePattern := none, folder := none } := by
      by_cases hpe : p.isEmpty = true <;>
        simp [compileFilter, compileExcludePattern, hp, hpe, hrc]
    unfold backlinks
    simp only [hcf]
    rfl
  · intro rc pd state opts p hp hpne hrc
    unfold orphans
    have hcond : ((match opts.excludePattern with
        | some p => !p.isEmpty
        | none => false) &&
        (compileFilter rc pd opts).excludeRe.isNone) = true := by
      rw [hp]
      simp only [compileFilter, compileExcludePattern, hp]
      rw [if_neg (by simpa using hpne)]
      rw [hrc]
      simp [hpne]
    rw [if_pos hcond]

theorem claim_C3_invalid_filter_amended_witness :
    orphans (fun _ => none) (fun s => if s = str "2024-01-01" then some 0
        else none) c4state { modifiedAfter := some (str "not a date") } =
      orphans (fun _ => none) (fun s => if s = str "2024-01-01" then some 0
        else none) c4state {} ∧
    backlinks (fun _ => none) (fun _ => none) id (str "A") c4state
        { excludePattern := some (str "[") } =
      backlinks (fun _ => none) (fun _ => none) id (str "A") c4state {} ∧
    orphans (fun _ => none) (fun _ => none) c4state
        { excludePattern := some (str "[") } =
      { total := 0, offset := 0, limit := 50, results := [] } :=
  ⟨claim_C3_invalid_filter_amended.1 (fun _ => none) _ c4state
      { modifiedAfter := some (str "not a date") } (str "not a date")
      rfl (by decide) (by decide),
    claim_C3_invalid_filter_amended.2.1 (fun _ => none) (fun _ => none) id
      (str "A") c4state { excludePattern := some (str "[") } (str "[")
      rfl rfl,
    claim_C3_invalid_filter_amended.2.2 (fun _ => none) (fun _ => none)
      c4state { excludePattern := some (str "[") } (str "[")
      rfl (by decide) rfl⟩

/-! ### Search (src/search.ts `buildMatcher` / `search`) -/

/-- `escapeRegex`: prefix each regex metacharacter with a backslash
(metacharacters by code point: `. * + ? ^ $ { } ( ) | [ ] \`). -/
def escapeRegex (s : Str) : Str :=
  s.foldr
    (fun c acc =>
      if decide (c.toNat ∈ [46, 42, 43, 63, 94, 36, 123, 125, 40, 41, 124,
          91, 93, 92]) then '\\' :: c :: acc
      else c :: acc)
    []

/-- `q.split(/\s+/).filter(t => t.length > 0)`: the non-empty maximal runs
of non-whitespace characters. -/
def splitWsGo (cur : Str) : Str → List Str
  | [] => if cur.isEmpty then [] else [cur.reverse]
  | c :: rest =>
    if isJsWs c then
      if cur.isEmpty then splitWsGo [] rest
      else cur.reverse :: splitWsGo [] rest
    else splitWsGo (c :: cur) rest

def splitWsTerms (q : Str) : List Str := splitWsGo [] q

/-- `buildMatcher` (src/search.ts lines 13-42).  `rc` models
case-insensitive `new RegExp(query, "i")` compilation (`none` = the
constructor throws); `wordRe` models the word-boundary-wrapped literal
matcher `new RegExp("\\b" + escapeRegex(q) + "\\b", "i").test`, applied
to the escaped lowercased query. -/
def buildMatcher (rc : Str → Option (Str → Bool)) (wordRe : Str → Str → Bool)
    (query : Str) (wholeWord regex multiTerm : Bool) : Str → Bool :=
  if regex then
    match rc query with
    | some test => test
    | none => fun _ => false
  else
    let q := lowerStr query
    if wholeWord then wordRe (escapeRegex q)
    else
      if multiTerm then
        let terms := splitWsTerms q
        if terms.length > 1 then
          fun text => terms.any (fun term => includesStr (lowerStr text) term)
        else fun text => includesStr (lowerStr text) q
      else fun text => includesStr (lowerStr text) q

structure SearchHit where
  file : Str
  path : Str
  line : Nat
  text : Str
deriving DecidableEq, Repr

def collectNameMatches (notes : JsMap Note) (matchText : Str → Bool) :
    List SearchHit :=
  notes.filterMap (fun kv =>
    if matchText kv.2.name then
      some { file := kv.2.name, path := kv.2.path, line := 0,
             text := str "[name match] " ++ kv.2.name }
    else none)

def noteLineHits (note : Note) (matchText : Str → Bool) : List SearchHit :=
  (splitLines note.content).enum.filterMap (fun iv =>
    if matchText iv.2 then
      some { file := note.name, path := note.path, line := iv.1 + 1,
             text := jsTrim iv.2 }
    else none)

def collectContentMatches (notes : JsMap Note) (matchText : Str → Bool) :
    List SearchHit :=
  notes.foldl (fun hits kv => hits ++ noteLineHits kv.2 matchText) []

/-- `search` (src/search.ts lines 81-108): name pseudo-hits (line 0) are
emitted before content hits. -/
def search (rc : Str → Option (Str → Bool)) (wordRe : Str → Str → Bool)
    (pd : Str → Option Int) (query : Str) (state : GraphState)
    (opts : QueryOpts)
    (wholeWord includeNames regex multiTerm : Option Bool) :
    PaginatedResult SearchHit :=
  let matchText := buildMatcher rc wordRe query (wholeWord.getD false)
    (regex.getD false) (multiTerm.getD true)
  let filtered := filterNotes rc pd state.notes state.vaultPath opts
  let collected :=
    (if includeNames.getD false then collectNameMatches filtered matchText
      else []) ++ collectContentMatches filtered matchText
  paginate collected opts

def c9orphanNote : Note :=
  { name := str "One"
    path := str "/v/One.md"
    content := str "orphan"
    mtime := 0
    wikilinks := []
    frontmatterTags := []
    inlineTags := [] }

def c9journalNote : Note :=
  { name := str "Two"
    path := str "/v/Two.md"
    content := str "journal"
    mtime := 0
    wikilinks := []
    frontmatterTags := []
    inlineTags := [] }

def c9state : GraphState :=
  buildGraphState id (str "/v") [c9orphanNote, c9journalNote]

/-- Claim C9: the matcher is selected in priority order regex >
whole-word > multi-term > plain substring; an invalid regex matches
nothing; multi-term activates only for more-than-one-term queries and has
OR-of-case-insensitive-substring semantics; otherwise the whole query is
one case-insensitive substring.  The concrete conjuncts run the full
`search` on the spec's example: `"orphan journal"` matches both
single-word notes with multi-term on, and neither with `multiTerm:false`. -/
theorem claim_C9_search_matcher_selection :
    (∀ (rc : Str → Option (Str → Bool)) (wordRe : Str → Str → Bool)
        (q : Str) (ww mt : Bool) (f : Str → Bool) (text : Str),
      rc q = some f →
      buildMatcher rc wordRe q ww true mt text = f text) ∧
    (∀ (rc : Str → Option (Str → Bool)) (wordRe : Str → Str → Bool)
        (q : Str) (ww mt : Bool) (text : Str),
      rc q = none →
      buildMatcher rc wordRe q ww true mt text = false) ∧
    (∀ (rc : Str → Option (Str → Bool)) (wordRe : Str → Str → Bool)
        (q : Str) (mt : Bool) (text : Str),
      buildMatcher rc wordRe q true false mt text =
        wordRe (escapeRegex (lowerStr q)) text) ∧
    (∀ (rc : Str → Option (Str → Bool)) (wordRe : Str → Str → Bool)
        (q : Str) (text : Str),
      (splitWsTerms (lowerStr q)).length > 1 →
      (buildMatcher rc wordRe q false false true text = true ↔
        ∃ term ∈ splitWsTerms (lowerStr q),
          includesStr (lowerStr text) term = true)) ∧
    (∀ (rc : Str → Option (Str → Bool)) (wordRe : Str → Str → Bool)
        (q : Str) (text : Str),
      ¬ (splitWsTerms (lowerStr q)).length > 1 →
      buildMatcher rc wordRe q false false true text =
        includesStr (lowerStr text) (lowerStr q)) ∧
    (∀ (rc : Str → Option (Str → Bool)) (wordRe : Str → Str → Bool)
        (q : Str) (text : Str),
      buildMatcher rc wordRe q false false false text =
        includesStr (lowerStr text) (lowerStr q)) ∧
    (search (fun _ => none) (fun _ _ => false) (fun _ => none)
        (str "orphan journal") c9state {} none none none none).total = 2 ∧
    (search (fun _ => none) (fun _ _ => false) (fun _ => none)
        (str "orphan journal") c9state {} none none none
        (some false)).total = 0 := by
  refine ⟨?_, ?_, ?_, ?_, ?_, ?_, by decide, by decide⟩
  · intro rc wordRe q ww mt f text h
    unfold buildMatcher
    rw [if_pos rfl, h]
  · intro rc wordRe q ww mt text h
    unfold buildMatcher
    rw [if_pos rfl, h]
  · intro rc wordRe q mt text
    unfold buildMatcher
    rfl
  · intro rc wordRe q text hterms
    unfold buildMatcher
    simp only [if_neg (Bool.false_ne_true), if_pos rfl, if_pos hterms]
    simp [List.any_eq_true]
  · intro rc wordRe q text hterms
    unfold buildMatcher
    simp only [if_neg (Bool.false_ne_true), if_pos rfl, if_neg hterms]
    simp
  · intro rc wordRe q text
    unfold buildMatcher
    rfl

theorem claim_C9_search_matcher_selection_witness :
    buildMatcher (fun _ => none) (fun _ _ => false) (str "[") false true
        true (str "anything") = false :=
  claim_C9_search_matcher_selection.2.1 (fun _ => none) (fun _ _ => false)
    (str "[") false true (str "anything") rfl

/-! ### Frontmatter extraction and round trip (src/markdown.ts).

`FRONTMATTER_RE = /^---\r?\n([\s\S]*?\r?\n)---\r?\n/` is modelled as an
anchored opener, a lazy scan for the earliest closing delimiter preceded
by a newline, and the closing delimiter itself.  The YAML library is an
external collaborator: `yamlParse` models `YAML.parse` plus the
is-an-object check (`none` = no/unparsable/non-object), `yamlStringify`
models `YAML.stringify`. -/

/-- JavaScript `String.prototype.trimEnd`. -/
def trimEndCL (s : Str) : Str := (s.reverse.dropWhile isJsWs).reverse

/-- Consume the anchored opener `---\r?\n`. -/
def fmOpen : Str → Option Str
  | '-' :: '-' :: '-' :: rest =>
    match rest with
    | '\r' :: '\n' :: r => some r
    | '\n' :: r => some r
    | _ => none
  | _ => none

/-- Try to consume the closing delimiter `---\r?\n` at this position. -/
def fmClose : Str → Option Str
  | '-' :: '-' :: '-' :: rest =>
    match rest with
    | '\r' :: '\n' :: r => some r
    | '\n' :: r => some r
    | _ => none
  | _ => none

/-- Lazy scan: at each position where the group so far (held reversed in
`acc`) ends with a newline, try to close; the earliest close wins, as
with the non-greedy `[\s\S]*?`. -/
def fmScanGo (acc : Str) : Str → Option (Str × Str)
  | [] => none
  | c :: cs =>
    if acc.head? = some '\n' then
      match fmClose (c :: cs) with
      | some after => some (acc.reverse, after)
      | none => fmScanGo (c :: acc) cs
    else fmScanGo (c :: acc) cs

/-- `FRONTMATTER_RE.exec(content)`: `some (group, rest)` gives the first
capture group (including its trailing newline) and the text after the
whole match. -/
def fmSplit (content : Str) : Option (Str × Str) :=
  match fmOpen content with
  | none => none
  | some rest => fmScanGo [] rest

/-- `extractFrontmatter` (src/markdown.ts lines 51-65). -/
def extractFrontmatter {Fm : Type} (yamlParse : Str → Option Fm)
    (content : Str) : Option Fm :=
  match fmSplit content with
  | none => none
  | some (g, _) => yamlParse g

/-- `serializeFrontmatter` (src/markdown.ts lines 118-121). -/
def serializeFrontmatter {Fm : Type} (yamlStringify : Fm → Str)
    (fm : Fm) : Str :=
  '-' :: '-' :: '-' :: '\n' ::
    (trimEndCL (yamlStringify fm) ++ '\n' :: '-' :: '-' :: '-' :: '\n' :: [])

/-- `replaceFrontmatter` (src/markdown.ts lines 123-133). -/
def replaceFrontmatter {Fm : Type} (yamlStringify : Fm → Str)
    (content : Str) (fm : Fm) : Str :=
  let serialized := serializeFrontmatter yamlStringify fm
  match fmSplit content with
  | some (_, rest) => serialized ++ rest
  | none => serialized ++ content

/-- The body of a note: everything after the leading frontmatter block,
or the whole text when no block exists. -/
def fmBody (content : Str) : Str :=
  match fmSplit content with
  | some (_, rest) => rest
  | none => content

theorem str_dashes : str "---" = ['-', '-', '-'] := rfl

theorem str_nl_dashes : str "\n---" = '\n' :: '-' :: '-' :: '-' :: [] := rfl

theorem fmClose_none (s : Str) (h : jsStartsWith s ['-', '-', '-'] = false) :
    fmClose s = none := by
  match s with
  | [] => rfl
  | [a] =>
    unfold fmClose
    split
    · rename_i heq
      cases heq
    · rfl
  | [a, b] =>
    unfold fmClose
    split
    · rename_i heq
      cases heq
    · rfl
  | a :: b :: c :: rest =>
    unfold fmClose
    split
    · rename_i heq
      injection heq with h₁ heq
      injection heq with h₂ heq
      injection heq with h₃ heq
      subst h₁
      subst h₂
      subst h₃
      simp [jsStartsWith] at h
    · rfl

theorem jsStartsWith_append_nl (y z : Str)
    (h : jsStartsWith y ['-', '-', '-'] = false) :
    jsStartsWith (y ++ '\n' :: z) ['-', '-', '-'] = false := by
  have hnd : ('\n' == '-') = false := by decide
  match y with
  | [] =>
    simp [jsStartsWith, hnd]
  | [a] =>
    simp [jsStartsWith, hnd]
  | [a, b] =>
    simp [jsStartsWith, hnd]
  | a :: b :: c :: rest =>
    simp only [jsStartsWith, List.cons_append] at h ⊢
    exact h

theorem includes_cons (c : Char) (cs pat : Str) :
    includesStr (c :: cs) pat =
      (jsStartsWith (c :: cs) pat || includesStr cs pat) := rfl

/-- The core scan lemma: a group `y` with no `---` at a line start is
scanned through, and the first close found is the appended delimiter. -/
theorem fmScanGo_through (X : Str) : ∀ (y acc : Str),
    includesStr y ('\n' :: '-' :: '-' :: '-' :: []) = false →
    (acc.head? = some '\n' →
      fmClose (y ++ '\n' :: '-' :: '-' :: '-' :: '\n' :: X) = none) →
    fmScanGo acc (y ++ '\n' :: '-' :: '-' :: '-' :: '\n' :: X) =
      some (acc.reverse ++ (y ++ ['\n']), X) := by
  intro y
  induction y with
  | nil =>
    intro acc _ _
    by_cases hh : acc.head? = some '\n' <;>
      simp [fmScanGo, fmClose, hh]
  | cons c y ih =>
    intro acc hinc hP0
    simp only [List.cons_append] at hP0 ⊢
    have hinc₂ : includesStr y ('\n' :: '-' :: '-' :: '-' :: []) = false := by
      rw [includes_cons] at hinc
      exact (Bool.or_eq_false_iff.mp hinc).2
    have hP0₂ : ((c :: acc).head? = some '\n' →
        fmClose (y ++ '\n' :: '-' :: '-' :: '-' :: '\n' :: X) = none) := by
      intro hch
      simp only [List.head?_cons, Option.some.injEq] at hch
      subst hch
      rw [includes_cons] at hinc
      have h₁ := (Bool.or_eq_false_iff.mp hinc).1
      have hy3 : jsStartsWith y ['-', '-', '-'] = false := by
        have hnl : ('\n' == '\n') = true := by decide
        simp only [jsStartsWith, hnl, Bool.true_and] at h₁
        exact h₁
      exact fmClose_none _ (jsStartsWith_append_nl y _ hy3)
    have hrec : fmScanGo acc (c :: (y ++ '\n' :: '-' :: '-' :: '-' :: '\n' :: X)) =
        fmScanGo (c :: acc) (y ++ '\n' :: '-' :: '-' :: '-' :: '\n' :: X) := by
      by_cases hh : acc.head? = some '\n'
      · conv_lhs => rw [fmScanGo]
        rw [if_pos hh, hP0 hh]
      · conv_lhs => rw [fmScanGo]
        rw [if_neg hh]
    rw [hrec, ih (c :: acc) hinc₂ hP0₂]
    simp

/-- `fmSplit` recognizes exactly the serialized block, leaving any suffix
untouched. -/
theorem fmSplit_serialized (y X : Str)
    (hy : includesStr y ('\n' :: '-' :: '-' :: '-' :: []) = false) :
    fmSplit ('-' :: '-' :: '-' :: '\n' ::
        (y ++ '\n' :: '-' :: '-' :: '-' :: '\n' :: X)) =
      some (y ++ ['\n'], X) := by
  unfold fmSplit fmOpen
  have := fmScanGo_through X y [] hy (by intro h; cases h)
  simpa using this

/-- Claim C6: frontmatter round trip.  The YAML library is abstract; the
hypotheses are its contract on a mapping `m` with string/array/scalar
values: parsing inverts stringification (after the source's `trimEnd` and
re-appended newline), and the emitted YAML has no `---` at a line start
(plain/quoted/indented YAML never produces one).  Under that contract,
`extractFrontmatter(serializeFrontmatter(m)) = m`, and `replaceFrontmatter`
preserves the body — everything after the original leading block, or the
entire text when no block exists — byte for byte. -/
theorem claim_C6_frontmatter_round_trip :
    ∀ (Fm : Type) (yamlStringify : Fm → Str) (yamlParse : Str → Option Fm)
      (m : Fm),
      includesStr (trimEndCL (yamlStringify m))
          ('\n' :: '-' :: '-' :: '-' :: []) = false →
      yamlParse (trimEndCL (yamlStringify m) ++ ['\n']) = some m →
      extractFrontmatter yamlParse (serializeFrontmatter yamlStringify m) =
          some m ∧
      ∀ (c : Str),
        fmBody (replaceFrontmatter yamlStringify c m) = fmBody c := by
  intro Fm ystr ypar m hy hpar
  constructor
  · unfold extractFrontmatter serializeFrontmatter
    rw [fmSplit_serialized _ [] hy]
    exact hpar
  · intro c
    unfold replaceFrontmatter
    cases hs : fmSplit c with
    | some gr =>
      obtain ⟨g, rest⟩ := gr
      simp only [hs]
      unfold fmBody serializeFrontmatter
      rw [hs]
      have hshape : ('-' :: '-' :: '-' :: '\n' ::
          (trimEndCL (ystr m) ++ '\n' :: '-' :: '-' :: '-' :: '\n' :: [])) ++
            rest =
          '-' :: '-' :: '-' :: '\n' ::
            (trimEndCL (ystr m) ++ '\n' :: '-' :: '-' :: '-' :: '\n' :: rest) := by
        simp
      rw [hshape, fmSplit_serialized _ rest hy]
    | none =>
      simp only [hs]
      unfold fmBody serializeFrontmatter
      rw [hs]
      have hshape : ('-' :: '-' :: '-' :: '\n' ::
          (trimEndCL (ystr m) ++ '\n' :: '-' :: '-' :: '-' :: '\n' :: [])) ++
            c =
          '-' :: '-' :: '-' :: '\n' ::
            (trimEndCL (ystr m) ++ '\n' :: '-' :: '-' :: '-' :: '\n' :: c) := by
        simp
      rw [hshape, fmSplit_serialized _ c hy]

def c6stringify : Nat → Str := fun _ => str "a: b"

def c6parse : Str → Option Nat :=
  fun s => if s = str "a: b" ++ ['\n'] then some 7 else none

theorem claim_C6_frontmatter_round_trip_witness :
    extractFrontmatter c6parse (serializeFrontmatter c6stringify 7) =
        some 7 ∧
    fmBody (replaceFrontmatter c6stringify (str "hello") 7) =
      fmBody (str "hello") :=
  ⟨(claim_C6_frontmatter_round_trip Nat c6stringify c6parse 7 (by decide)
      (by decide)).1,
    (claim_C6_frontmatter_round_trip Nat c6stringify c6parse 7 (by decide)
      (by decide)).2 (str "hello")⟩

/-! ### Levenshtein distance: the two parallel implementations
(src/search.ts lines 165-182, rolling rows with argument swap; the full
matrix version of the second search module, lines 795-814) against the
classic edit-distance recursion. -/

def levCost (x y : Char) : Nat := if x = y then 0 else 1

/-- Classic edit distance: insertion/deletion/substitution at cost 1. -/
def levSpec : List Char → List Char → Nat
  | [], ys => ys.length
  | _ :: xs, [] => xs.length + 1
  | x :: xs, y :: ys =>
    min (levSpec xs (y :: ys) + 1)
      (min (levSpec (x :: xs) ys + 1) (levSpec xs ys + levCost x y))
termination_by xs ys => (xs.length, ys.length)

/-- The inner `j` loop shared by both implementations:
`curr[j] = min(prev[j] + 1, curr[j - 1] + 1, prev[j - 1] + cost)`,
walking `prev` and `b` together (`diag = prev[j-1]`, `left = curr[j-1]`). -/
def levInner (x : Char) : Nat → List Nat → Nat → List Char → List Nat
  | _, _, _, [] => []
  | _, [], _, _ :: _ => []
  | diag, pj :: prest, left, y :: ys =>
    let c := min (pj + 1) (min (left + 1) (diag + levCost x y))
    c :: levInner x pj prest c ys

/-- The outer `i` loop: row `i+1` starts with `curr[0] = i + 1`. -/
def levRowLoop (bs : List Char) : Nat → List Nat → List Char → List Nat
  | _, prev, [] => prev
  | i, prev, x :: xs =>
    let curr := (i + 1) ::
      (match prev with
        | p0 :: prest => levInner x p0 prest (i + 1) bs
        | [] => [])
    levRowLoop bs (i + 1) curr xs

/-- The full-matrix implementation: `dp[0] = [0..n]`, each further row by
the shared recurrence, answer `dp[m][n]`.  (The matrix is represented by
its successive rows; row `i` only ever reads row `i-1`.) -/
def levenshteinFull (a b : List Char) : Nat :=
  (levRowLoop b 0 (List.range (b.length + 1)) a).getLastD 0

/-- The rolling-rows implementation: swap so the longer string is the
outer dimension (`if (a.length < b.length) [a, b] = [b, a]`), then the
same recurrence keeping two rows. -/
def levenshteinRolling (a b : List Char) : Nat :=
  if a.length < b.length then levenshteinFull b a else levenshteinFull a b

theorem levSpec_nil_left (v : List Char) : levSpec [] v = v.length := by
  simp [levSpec]

theorem levSpec_nil_right (u : List Char) : levSpec u [] = u.length := by
  cases u <;> simp [levSpec]

theorem levSpec_cons_cons (x y : Char) (xs ys : List Char) :
    levSpec (x :: xs) (y :: ys) =
      min (levSpec xs (y :: ys) + 1)
        (min (levSpec (x :: xs) ys + 1) (levSpec xs ys + levCost x y)) := by
  simp [levSpec]

/-- The prefix form of the distance computed by the row loops: distance
between reversed arguments. -/
def levB (u v : List Char) : Nat := levSpec u.reverse v.reverse

theorem levB_nil_left (v : List Char) : levB [] v = v.length := by
  simp [levB, levSpec_nil_left]

theorem levB_nil_right (u : List Char) : levB u [] = u.length := by
  simp [levB, levSpec_nil_right]

theorem levB_step (p q : List Char) (x y : Char) :
    levB (p ++ [x]) (q ++ [y]) =
      min (levB p (q ++ [y]) + 1)
        (min (levB (p ++ [x]) q + 1) (levB p q + levCost x y)) := by
  unfold levB
  rw [List.reverse_append, List.reverse_append]
  simp only [List.reverse_singleton, List.singleton_append]
  rw [levSpec_cons_cons]

/-- The spec row for prefix `p`: entries `levB p (bdone ++ take j brest)`. -/
def rowSpecAux (p bdone : List Char) : List Char → List Nat
  | [] => [levB p bdone]
  | y :: ys => levB p bdone :: rowSpecAux p (bdone ++ [y]) ys

def rowTail (p bdone : List Char) : List Char → List Nat
  | [] => []
  | y :: ys => rowSpecAux p (bdone ++ [y]) ys

theorem rowSpecAux_eq (p bdone brest : List Char) :
    rowSpecAux p bdone brest = levB p bdone :: rowTail p bdone brest := by
  cases brest <;> rfl

theorem levInner_spec (x : Char) (p : List Char) : ∀ (brest bdone : List Char),
    levInner x (levB p bdone) (rowTail p bdone brest)
        (levB (p ++ [x]) bdone) brest =
      rowTail (p ++ [x]) bdone brest := by
  intro brest
  induction brest with
  | nil =>
    intro bdone
    rfl
  | cons y ys ih =>
    intro bdone
    show levInner x (levB p bdone) (rowSpecAux p (bdone ++ [y]) ys)
        (levB (p ++ [x]) bdone) (y :: ys) = rowSpecAux (p ++ [x]) (bdone ++ [y]) ys
    rw [rowSpecAux_eq p (bdone ++ [y]) ys]
    unfold levInner
    rw [← levB_step p bdone x y]
    show levB (p ++ [x]) (bdone ++ [y]) ::
        levInner x (levB p (bdone ++ [y])) (rowTail p (bdone ++ [y]) ys)
          (levB (p ++ [x]) (bdone ++ [y])) ys =
      rowSpecAux (p ++ [x]) (bdone ++ [y]) ys
    rw [ih (bdone ++ [y])]
    rw [rowSpecAux_eq]

theorem levRowLoop_spec (b : List Char) : ∀ (xs p : List Char),
    levRowLoop b p.length (rowSpecAux p [] b) xs =
      rowSpecAux (p ++ xs) [] b := by
  intro xs
  induction xs with
  | nil =>
    intro p
    simp [levRowLoop]
  | cons x xs ih =>
    intro p
    show levRowLoop b p.length (rowSpecAux p [] b) (x :: xs) = _
    unfold levRowLoop
    rw [rowSpecAux_eq p [] b]
    simp only []
    have hcurr : (p.length + 1) ::
        levInner x (levB p []) (rowTail p [] b) (p.length + 1) b =
        rowSpecAux (p ++ [x]) [] b := by
      have hlen : p.length + 1 = levB (p ++ [x]) [] := by
        rw [levB_nil_right]
        simp
      rw [hlen, levInner_spec x p b [], ← rowSpecAux_eq]
    rw [hcurr]
    have hlen₂ : p.length + 1 = (p ++ [x]).length := by simp
    rw [hlen₂, ih (p ++ [x])]
    simp

theorem rowSpecAux_init (b : List Char) : ∀ (brest bdone : List Char),
    rowSpecAux ([] : List Char) bdone brest =
      List.range' bdone.length (brest.length + 1) := by
  intro brest
  induction brest with
  | nil =>
    intro bdone
    unfold rowSpecAux
    rw [levB_nil_left]
    rfl
  | cons y ys ih =>
    intro bdone
    unfold rowSpecAux
    rw [levB_nil_left, ih (bdone ++ [y])]
    simp [List.range'_succ]

theorem rowSpecAux_getLast (p : List Char) : ∀ (brest bdone : List Char)
    (d : Nat),
    (rowSpecAux p bdone brest).getLastD d = levB p (bdone ++ brest) := by
  intro brest
  induction brest with
  | nil =>
    intro bdone d
    simp [rowSpecAux]
  | cons y ys ih =>
    intro bdone d
    unfold rowSpecAux
    rw [List.getLastD_cons, ih (bdone ++ [y])]
    simp

theorem levenshteinFull_eq_levB (a b : List Char) :
    levenshteinFull a b = levB a b := by
  unfold levenshteinFull
  have hinit : List.range (b.length + 1) = rowSpecAux [] [] b := by
    rw [rowSpecAux_init b b []]
    simp [List.range_eq_range']
  rw [hinit]
  have h₀ : (0 : Nat) = ([] : List Char).length := rfl
  rw [h₀, levRowLoop_spec b a []]
  rw [rowSpecAux_getLast]
  simp

/-- The min-exchange identity behind the two ways of decomposing an edit
distance (first on one end, then on the other). -/
theorem min_exchange (a1 a2 a3 b1 b2 b3 c1 c2 c3 p q : Nat) :
    min (min (a1 + 1) (min (a2 + 1) (a3 + p)) + 1)
      (min (min (b1 + 1) (min (b2 + 1) (b3 + p)) + 1)
        (min (c1 + 1) (min (c2 + 1) (c3 + p)) + q)) =
    min (min (a1 + 1) (min (b1 + 1) (c1 + q)) + 1)
      (min (min (a2 + 1) (min (b2 + 1) (c2 + q)) + 1)
        (min (a3 + 1) (min (b3 + 1) (c3 + q)) + p)) := by
  simp only [← Nat.add_min_add_right]
  ring_nf
  ac_rfl

/-- The back-end recurrence satisfied by the classic front-end
recursion: edit distance also decomposes on last characters. -/
theorem levSpec_concat (x y : Char) : ∀ (u v : List Char),
    levSpec (u ++ [x]) (v ++ [y]) =
      min (levSpec u (v ++ [y]) + 1)
        (min (levSpec (u ++ [x]) v + 1) (levSpec u v + levCost x y)) := by
  intro u
  induction u with
  | nil =>
    intro v
    induction v with
    | nil =>
      simp only [List.nil_append]
      rw [levSpec_cons_cons]
    | cons w ws ihv =>
      simp only [List.nil_append, List.cons_append] at ihv ⊢
      simp only [levSpec_cons_cons, levSpec_nil_left, levSpec_nil_right,
        List.length_cons, List.length_append, List.length_nil]
      rw [ihv]
      simp only [levSpec_nil_left, List.length_append, List.length_cons,
        List.length_nil]
      omega
  | cons z zs ihu =>
    intro v
    induction v with
    | nil =>
      simp only [List.cons_append, List.nil_append]
      have h₁ := ihu []
      simp only [List.nil_append] at h₁
      simp only [levSpec_cons_cons, levSpec_nil_left, levSpec_nil_right,
        List.length_cons, List.length_append, List.length_nil]
      rw [h₁]
      simp only [levSpec_nil_left, levSpec_nil_right, List.length_append,
        List.length_cons, List.length_nil]
      omega
    | cons w ws ihv =>
      simp only [List.cons_append] at ihv ⊢
      have h₁ := ihu (w :: ws)
      simp only [List.cons_append] at h₁
      have h₂ := ihu ws
      rw [levSpec_cons_cons z w (zs ++ [x]) (ws ++ [y])]
      rw [h₁, ihv, h₂]
      rw [levSpec_cons_cons z w zs (ws ++ [y])]
      rw [levSpec_cons_cons z w (zs ++ [x]) ws]
      rw [levSpec_cons_cons z w zs ws]
      exact min_exchange _ _ _ _ _ _ _ _ _ _ _

theorem levSpec_reverse_aux : ∀ (n : Nat) (u v : List Char),
    u.length + v.length ≤ n →
    levSpec u.reverse v.reverse = levSpec u v := by
  intro n
  induction n with
  | zero =>
    intro u v hle
    cases u with
    | cons _ _ => simp at hle
    | nil =>
      cases v with
      | cons _ _ => simp at hle
      | nil => rfl
  | succ n ih =>
    intro u v hle
    cases u with
    | nil => simp [levSpec_nil_left]
    | cons x xs =>
      cases v with
      | nil => simp [levSpec_nil_right]
      | cons y ys =>
        rw [List.reverse_cons, List.reverse_cons, levSpec_concat x y]
        rw [← List.reverse_cons y ys, ← List.reverse_cons x xs]
        have hlen := hle
        simp only [List.length_cons] at hlen
        rw [ih xs (y :: ys) (by simp; omega),
          ih (x :: xs) ys (by simp; omega),
          ih xs ys (by omega)]
        rw [levSpec_cons_cons]

theorem levSpec_reverse (u v : List Char) :
    levSpec u.reverse v.reverse = levSpec u v :=
  levSpec_reverse_aux (u.length + v.length) u v le_rfl

theorem levCost_comm (x y : Char) : levCost x y = levCost y x := by
  unfold levCost
  by_cases h : x = y
  · simp [h]
  · rw [if_neg h, if_neg (fun he => h he.symm)]

theorem levSpec_comm_aux : ∀ (n : Nat) (u v : List Char),
    u.length + v.length ≤ n → levSpec u v = levSpec v u := by
  intro n
  induction n with
  | zero =>
    intro u v hle
    cases u with
    | cons _ _ => simp at hle
    | nil =>
      cases v with
      | cons _ _ => simp at hle
      | nil => rfl
  | succ n ih =>
    intro u v hle
    cases u with
    | nil => simp [levSpec_nil_left, levSpec_nil_right]
    | cons x xs =>
      cases v with
      | nil => simp [levSpec_nil_left, levSpec_nil_right]
      | cons y ys =>
        rw [levSpec_cons_cons, levSpec_cons_cons]
        simp only [List.length_cons] at hle
        rw [ih xs (y :: ys) (by simp; omega),
          ih (x :: xs) ys (by simp; omega),
          ih xs ys (by omega), levCost_comm]
        omega

theorem levSpec_comm (u v : List Char) : levSpec u v = levSpec v u :=
  levSpec_comm_aux (u.length + v.length) u v le_rfl

theorem levSpec_self (x : List Char) : levSpec x x = 0 := by
  induction x with
  | nil => rw [levSpec_nil_left]; rfl
  | cons c cs ih =>
    rw [levSpec_cons_cons, ih]
    have hc : levCost c c = 0 := by simp [levCost]
    rw [hc]
    omega

theorem levenshteinFull_correct (a b : List Char) :
    levenshteinFull a b = levSpec a b := by
  rw [levenshteinFull_eq_levB]
  unfold levB
  exact levSpec_reverse a b

/-- Claim C8: both Levenshtein implementations — the full matrix and the
two rolling rows with the longer string as outer dimension — compute the
classic unit-cost edit distance and agree on every pair of strings; in
particular `levenshtein("kitten","sitting") = 3`,
`levenshtein("", "abc") = 3`, and `levenshtein(x, x) = 0` for every `x`. -/
theorem claim_C8_levenshtein_equivalence :
    (∀ a b : Str, levenshteinFull a b = levSpec a b) ∧
    (∀ a b : Str, levenshteinRolling a b = levenshteinFull a b) ∧
    levenshteinFull (str "kitten") (str "sitting") = 3 ∧
    levenshteinRolling (str "kitten") (str "sitting") = 3 ∧
    levenshteinFull (str "") (str "abc") = 3 ∧
    levenshteinRolling (str "") (str "abc") = 3 ∧
    (∀ x : Str, levenshteinFull x x = 0 ∧ levenshteinRolling x x = 0) := by
  have hfull := levenshteinFull_correct
  have hroll : ∀ a b : Str, levenshteinRolling a b = levenshteinFull a b := by
    intro a b
    unfold levenshteinRolling
    by_cases h : a.length < b.length
    · rw [if_pos h, hfull b a, hfull a b, levSpec_comm]
    · rw [if_neg h]
  refine ⟨hfull, hroll, by decide, by decide, by decide, by decide, ?_⟩
  intro x
  constructor
  · rw [hfull, levSpec_self]
  · rw [hroll, hfull, levSpec_self]

/-! ### Claim C2: BFS depth correctness of `traverse`.

The specification side: a forward-link path through existing notes, and
reachability from a set of root keys. -/

/-- A traversable edge: `t` is a forward target of `s` and is itself a
note (missing targets are recorded but never enqueued). -/
def GEdge (state : GraphState) (s t : Str) : Prop :=
  t ∈ (mapGet state.forward s).getD [] ∧ mapHas state.notes t = true

/-- A forward-link path of the given length. -/
inductive GPath (state : GraphState) : Str → Nat → Str → Prop where
  | refl (k : Str) : GPath state k 0 k
  | step {s u t : Str} {m : Nat} :
      GEdge state s u → GPath state u m t → GPath state s (m + 1) t

/-- `k` lies at distance (at most witnessed) `e` from some root. -/
def ReachIn (state : GraphState) (rootKeys : List Str) (e : Nat)
    (k : Str) : Prop :=
  ∃ r ∈ rootKeys, GPath state r e k

theorem GPath_zero {state : GraphState} {s t : Str}
    (h : GPath state s 0 t) : s = t := by
  cases h
  rfl

theorem GPath_snoc {state : GraphState} {r s t : Str} {m : Nat}
    (hp : GPath state r m s) (he : GEdge state s t) :
    GPath state r (m + 1) t := by
  induction hp with
  | refl => exact .step he (.refl t)
  | step he₂ _ ih => exact .step he₂ (ih he)

theorem GPath_peel {state : GraphState} {r t : Str} : ∀ {m : Nat},
    GPath state r (m + 1) t → ∃ u, GPath state r m u ∧ GEdge state u t := by
  intro m
  induction m generalizing r with
  | zero =>
    intro h
    cases h with
    | step he hp =>
      have := GPath_zero hp
      subst this
      exact ⟨r, .refl r, he⟩
  | succ m ih =>
    intro h
    cases h with
    | step he hp =>
      obtain ⟨u, hpu, heu⟩ := ih hp
      exact ⟨u, .step he hpu, heu⟩

theorem ReachIn_step {state : GraphState} {rootKeys : List Str} {e : Nat}
    {s t : Str} (h : ReachIn state rootKeys e s) (he : GEdge state s t) :
    ReachIn state rootKeys (e + 1) t := by
  obtain ⟨r, hr, hp⟩ := h
  exact ⟨r, hr, GPath_snoc hp he⟩

theorem ReachIn_peel {state : GraphState} {rootKeys : List Str} {e : Nat}
    {t : Str} (h : ReachIn state rootKeys (e + 1) t) :
    ∃ s, ReachIn state rootKeys e s ∧ GEdge state s t := by
  obtain ⟨r, hr, hp⟩ := h
  obtain ⟨u, hpu, heu⟩ := GPath_peel hp
  exact ⟨u, ⟨r, hr, hpu⟩, heu⟩

/-! Association-list facts used for the visited map. -/

theorem mem_of_mapGet {α : Type} {m : JsMap α} {k : Str} {v : α}
    (h : mapGet m k = some v) : (k, v) ∈ m := by
  induction m with
  | nil => cases h
  | cons hd tl ih =>
    obtain ⟨k₂, v₂⟩ := hd
    by_cases he : k₂ = k
    · subst he
      unfold mapGet at h
      rw [if_pos rfl] at h
      injection h with h
      subst h
      exact List.mem_cons_self _ _
    · unfold mapGet at h
      rw [if_neg he] at h
      exact List.mem_cons_of_mem _ (ih h)

theorem mapGet_of_mem {α : Type} {m : JsMap α} {k : Str} {v : α}
    (hmem : (k, v) ∈ m) (hnd : (m.map Prod.fst).Nodup) :
    mapGet m k = some v := by
  induction m with
  | nil => cases hmem
  | cons hd tl ih =>
    obtain ⟨k₂, v₂⟩ := hd
    simp only [List.map_cons, List.nodup_cons] at hnd
    rcases List.mem_cons.mp hmem with he | he
    · injection he with he₁ he₂
      subst he₁
      subst he₂
      unfold mapGet
      rw [if_pos rfl]
    · have hne : k₂ ≠ k := by
        intro hc
        subst hc
        exact hnd.1 (List.mem_map.mpr ⟨(k₂, v), he, rfl⟩)
      unfold mapGet
      rw [if_neg hne]
      exact ih he hnd.2

theorem mapSet_fresh {α : Type} (m : JsMap α) (k : Str) (v : α)
    (h : mapGet m k = none) : mapSet m k v = m ++ [(k, v)] := by
  induction m with
  | nil => rfl
  | cons hd tl ih =>
    obtain ⟨k₂, v₂⟩ := hd
    unfold mapGet at h
    by_cases he : k₂ = k
    · rw [if_pos he] at h
      cases h
    · rw [if_neg he] at h
      unfold mapSet
      rw [if_neg he, ih h]
      rfl

/-! The BFS loop invariant. -/

structure BfsInv (state : GraphState) (rootKeys : List Str) (maxDepth : Nat)
    (queue : List (Str × Nat)) (visited : JsMap Nat) : Prop where
  vis_sound : ∀ p ∈ visited, ReachIn state rootKeys p.2 p.1
  vis_min : ∀ p ∈ visited, ∀ e, ReachIn state rootKeys e p.1 → p.2 ≤ e
  vis_maxd : ∀ p ∈ visited, p.2 ≤ maxDepth
  vis_nodup : (visited.map Prod.fst).Nodup
  vis_haskey : ∀ p ∈ visited, mapHas state.notes p.1 = true
  q_sound : ∀ p ∈ queue, ReachIn state rootKeys p.2 p.1 ∧ p.2 ≤ maxDepth ∧
    mapHas state.notes p.1 = true
  q_sorted : List.Pairwise (fun p r => p.2 ≤ r.2) queue
  q_bound : ∀ p ∈ queue, ∀ r ∈ queue, p.2 ≤ r.2 + 1
  nbrs : ∀ p ∈ visited, p.2 < maxDepth → ∀ t, GEdge state p.1 t →
    (∃ d, d ≤ p.2 + 1 ∧ (t, d) ∈ visited) ∨ (t, p.2 + 1) ∈ queue
  roots : ∀ r ∈ rootKeys, (∃ d, (r, d) ∈ visited) ∨ (r, 0) ∈ queue

/-- Every node reachable within the depth budget has a visited witness at
most that deep, or something at most that deep is still queued. -/
theorem bfs_reach_witness {state : GraphState} {rootKeys : List Str}
    {maxDepth : Nat} {queue : List (Str × Nat)} {visited : JsMap Nat}
    (inv : BfsInv state rootKeys maxDepth queue visited) :
    ∀ e, e ≤ maxDepth → ∀ k, ReachIn state rootKeys e k →
      (∃ d, d ≤ e ∧ (k, d) ∈ visited) ∨ (∃ p ∈ queue, p.2 ≤ e) := by
  intro e
  induction e with
  | zero =>
    intro _ k hreach
    obtain ⟨r, hr, hp⟩ := hreach
    have := GPath_zero hp
    subst this
    rcases inv.roots r hr with ⟨d, hd⟩ | hq
    · left
      refine ⟨d, ?_, hd⟩
      exact inv.vis_min (r, d) hd 0 ⟨r, hr, .refl r⟩
    · right
      exact ⟨(r, 0), hq, le_rfl⟩
  | succ e ih =>
    intro hle k hreach
    obtain ⟨s, hs, hedge⟩ := ReachIn_peel hreach
    rcases ih (by omega) s hs with ⟨d, hd, hmem⟩ | ⟨p, hp, hpe⟩
    · have hdm : d < maxDepth := by omega
      rcases inv.nbrs (s, d) hmem hdm k hedge with ⟨d₂, hd₂, hmem₂⟩ | hq
      · left
        exact ⟨d₂, by omega, hmem₂⟩
      · right
        exact ⟨(k, d + 1), hq, by omega⟩
    · right
      exact ⟨p, hp, by omega⟩

theorem mapHas_of_mem {α : Type} {m : JsMap α} {k : Str} {v : α}
    (h : (k, v) ∈ m) : mapHas m k = true := by
  induction m with
  | nil => cases h
  | cons hd tl ih =>
    obtain ⟨k₂, v₂⟩ := hd
    by_cases he : k₂ = k
    · subst he
      simp [mapHas, mapGet]
    · rcases List.mem_cons.mp h with hm | hm
      · injection hm with hm₁ _
        exact absurd hm₁.symm he
      · simpa [mapHas, mapGet, he] using ih hm

theorem exists_mem_of_mapHas {α : Type} {m : JsMap α} {k : Str}
    (h : mapHas m k = true) : ∃ v, (k, v) ∈ m := by
  unfold mapHas at h
  cases hg : mapGet m k with
  | none => rw [hg] at h; cases h
  | some v => exact ⟨v, mem_of_mapGet hg⟩

theorem not_mem_keys_of_not_mapHas {α : Type} {m : JsMap α} {k : Str}
    (h : mapHas m k = false) : k ∉ m.map Prod.fst := by
  intro hc
  obtain ⟨⟨k₂, v⟩, hmem, he⟩ := List.mem_map.mp hc
  cases he
  rw [mapHas_of_mem hmem] at h
  cases h

/-- The body of the `processNeighbors` fold, named so the fold can be
characterized by induction (definitionally the lambda in the source). -/
def pnStep (state : GraphState) (sourceNote : Note) (depth : Nat)
    (exclPre : List Str)
    (acc : List (Str × Nat) × JsMap LinkType × List Str) (target : Str) :
    List (Str × Nat) × JsMap LinkType × List Str :=
  let (pushes, lt, mf) := acc
  if ¬ mapHas state.notes target then
    (pushes, lt, setAdd mf target)
  else if !exclPre.isEmpty &&
      (match mapGet state.notes target with
        | some tn => exclPre.any
            (fun p => jsStartsWith
              (tn.path.drop (state.vaultPath.length + 1)) p)
        | none => false) then
    (pushes, lt, mf)
  else
    let lt₂ :=
      if mapHas lt target then lt
      else
        match sourceNote.wikilinks.find?
            (fun w => normKey w.name == target) with
        | some wl =>
          mapSet lt target (if wl.embed then .embed else .wikilink)
        | none => lt
    (pushes ++ [(target, depth + 1)], lt₂, mf)

theorem processNeighbors_eq_fold (state : GraphState) (key : Str)
    (depth : Nat) (exclPre : List Str) (lt : JsMap LinkType) (mf : List Str) :
    processNeighbors state key depth exclPre lt mf =
      match mapGet state.notes key with
      | none => ([], lt, mf)
      | some sourceNote =>
        match mapGet state.forward key with
        | none => ([], lt, mf)
        | some targets =>
          targets.foldl (pnStep state sourceNote depth exclPre)
            ([], lt, mf) := rfl

/-- With no folder exclusions, the queue pushes of one fold are exactly
the note-targets at the next depth. -/
theorem pnStep_fold_fst (state : GraphState) (sourceNote : Note)
    (depth : Nat) (targets : List Str) :
    ∀ (p₀ : List (Str × Nat)) (lt : JsMap LinkType) (mf : List Str),
    (targets.foldl (pnStep state sourceNote depth []) (p₀, lt, mf)).1 =
      p₀ ++ (targets.filter (fun t => mapHas state.notes t)).map
        (fun t => (t, depth + 1)) := by
  induction targets with
  | nil => intro p₀ lt mf; simp
  | cons t ts ih =>
    intro p₀ lt mf
    simp only [List.foldl_cons, List.filter_cons]
    by_cases h : mapHas state.notes t = true
    · have hstep : pnStep state sourceNote depth [] (p₀, lt, mf) t =
          (p₀ ++ [(t, depth + 1)],
            if mapHas lt t then lt
            else
              match sourceNote.wikilinks.find?
                  (fun w => normKey w.name == t) with
              | some wl =>
                mapSet lt t (if wl.embed then .embed else .wikilink)
              | none => lt, mf) := by
        simp [pnStep, h]
      rw [hstep, ih]
      simp [h]
    · have hf : mapHas state.notes t = false := bool_eq_false _ h
      have hstep : pnStep state sourceNote depth [] (p₀, lt, mf) t =
          (p₀, lt, setAdd mf t) := by
        simp [pnStep, hf]
      rw [hstep, ih]
      simp [hf]

/-- The two directions of the push characterization that the invariant
needs: every graph edge out of a queued note is pushed at depth + 1, and
every push is such an edge. -/
theorem processNeighbors_spec (state : GraphState) (key : Str) (depth : Nat)
    (lt : JsMap LinkType) (mf : List Str)
    (hk : mapHas state.notes key = true) :
    (∀ t, GEdge state key t →
      (t, depth + 1) ∈ (processNeighbors state key depth [] lt mf).1) ∧
    (∀ p ∈ (processNeighbors state key depth [] lt mf).1,
      p.2 = depth + 1 ∧ GEdge state key p.1) := by
  have hg : ∃ n, mapGet state.notes key = some n := by
    unfold mapHas at hk
    cases hgg : mapGet state.notes key with
    | none => rw [hgg] at hk; cases hk
    | some n => exact ⟨n, rfl⟩
  obtain ⟨note, hg⟩ := hg
  rw [processNeighbors_eq_fold, hg]
  cases hfw : mapGet state.forward key with
  | none =>
    constructor
    · intro t ht
      obtain ⟨hmem, _⟩ := ht
      rw [hfw] at hmem
      cases hmem
    · intro p hp
      cases hp
  | some targets =>
    rw [pnStep_fold_fst]
    simp only [List.nil_append]
    constructor
    · intro t ht
      obtain ⟨hmem, hhas⟩ := ht
      rw [hfw] at hmem
      simp only [Option.getD_some] at hmem
      exact List.mem_map.mpr
        ⟨t, List.mem_filter.mpr ⟨hmem, by simp [hhas]⟩, rfl⟩
    · intro p hp
      obtain ⟨t, htf, he⟩ := List.mem_map.mp hp
      obtain ⟨hmem, hhas⟩ := List.mem_filter.mp htf
      subst he
      refine ⟨rfl, ?_, by simpa using hhas⟩
      rw [hfw]
      simpa using hmem

theorem mapGet_none_of_not_mapHas {α : Type} {m : JsMap α} {k : Str}
    (h : mapHas m k = false) : mapGet m k = none := by
  unfold mapHas at h
  cases hg : mapGet m k with
  | none => rfl
  | some v => rw [hg] at h; cases h

theorem mem_mapSet_fresh {α : Type} {m : JsMap α} {k : Str} {v : α}
    (h : mapHas m k = false) (q : Str × α) :
    q ∈ mapSet m k v ↔ q ∈ m ∨ q = (k, v) := by
  rw [mapSet_fresh m k v (mapGet_none_of_not_mapHas h)]
  simp

/-- Invariant preservation when the popped key was already visited. -/
theorem bfsInv_tail_of_visited {state : GraphState} {rootKeys : List Str}
    {maxDepth : Nat} {key : Str} {depth : Nat} {rest : List (Str × Nat)}
    {visited : JsMap Nat}
    (inv : BfsInv state rootKeys maxDepth ((key, depth) :: rest) visited)
    (h : mapHas visited key = true) :
    BfsInv state rootKeys maxDepth rest visited := by
  obtain ⟨v, hv⟩ := exists_mem_of_mapHas h
  have hhead := inv.q_sound (key, depth) (List.mem_cons_self _ _)
  have hvle : v ≤ depth := inv.vis_min (key, v) hv depth hhead.1
  refine
    { vis_sound := inv.vis_sound
      vis_min := inv.vis_min
      vis_maxd := inv.vis_maxd
      vis_nodup := inv.vis_nodup
      vis_haskey := inv.vis_haskey
      q_sound := fun p hp => inv.q_sound p (List.mem_cons_of_mem _ hp)
      q_sorted := (List.pairwise_cons.mp inv.q_sorted).2
      q_bound := fun p hp r hr =>
        inv.q_bound p (List.mem_cons_of_mem _ hp) r (List.mem_cons_of_mem _ hr)
      nbrs := ?_
      roots := ?_ }
  · intro p hp hplt t hedge
    rcases inv.nbrs p hp hplt t hedge with hvis | hq
    · exact Or.inl hvis
    · rcases List.mem_cons.mp hq with he | he
      · injection he with he₁ he₂
        subst he₁
        exact Or.inl ⟨v, by omega, hv⟩
      · exact Or.inr he
  · intro r hr
    rcases inv.roots r hr with hvis | hq
    · exact Or.inl hvis
    · rcases List.mem_cons.mp hq with he | he
      · injection he with he₁ he₂
        subst he₁
        exact Or.inl ⟨v, hv⟩
      · exact Or.inr he

/-- First visit records a minimal depth: anything reachable more cheaply
would already be visited or queued at most as deep as the sorted head. -/
theorem bfs_head_min {state : GraphState} {rootKeys : List Str}
    {maxDepth : Nat} {key : Str} {depth : Nat} {rest : List (Str × Nat)}
    {visited : JsMap Nat}
    (inv : BfsInv state rootKeys maxDepth ((key, depth) :: rest) visited)
    (h : mapHas visited key = false) (hdle : depth ≤ maxDepth) :
    ∀ e, ReachIn state rootKeys e key → depth ≤ e := by
  intro e hre
  by_contra hc
  push_neg at hc
  have he : e ≤ maxDepth := by omega
  rcases bfs_reach_witness inv e he key hre with ⟨d, _, hm⟩ | ⟨p, hp, hpe⟩
  · rw [mapHas_of_mem hm] at h
    cases h
  · rcases List.mem_cons.mp hp with heq | hm
    · subst heq
      simp only at hpe
      omega
    · have := (List.pairwise_cons.mp inv.q_sorted).1 p hm
      simp only at this
      omega

/-- Invariant preservation when the popped key is expanded
(unvisited, depth below the budget). -/
theorem bfsInv_step_expand {state : GraphState} {rootKeys : List Str}
    {maxDepth : Nat} {key : Str} {depth : Nat} {rest : List (Str × Nat)}
    {visited : JsMap Nat} {lt : JsMap LinkType} {mf : List Str}
    {pushes : List (Str × Nat)} {lt₂ : JsMap LinkType} {mf₂ : List Str}
    (inv : BfsInv state rootKeys maxDepth ((key, depth) :: rest) visited)
    (h : mapHas visited key = false)
    (hlt : depth < maxDepth)
    (hpn : processNeighbors state key depth [] lt mf = (pushes, lt₂, mf₂)) :
    BfsInv state rootKeys maxDepth (rest ++ pushes)
      (mapSet visited key depth) := by
  obtain ⟨hreach, hdle, hkey⟩ := inv.q_sound (key, depth) (List.mem_cons_self _ _)
  have hsorted := (List.pairwise_cons.mp inv.q_sorted).1
  have hps := processNeighbors_spec state key depth lt mf hkey
  rw [hpn] at hps
  obtain ⟨hps₁, hps₂⟩ := hps
  have hmin := bfs_head_min inv h hdle
  have hmem₂ := fun q => mem_mapSet_fresh (v := depth) h q
  refine
    { vis_sound := ?_, vis_min := ?_, vis_maxd := ?_, vis_nodup := ?_
      vis_haskey := ?_, q_sound := ?_, q_sorted := ?_, q_bound := ?_
      nbrs := ?_, roots := ?_ }
  · intro p hp
    rcases (hmem₂ p).mp hp with hm | he
    · exact inv.vis_sound p hm
    · subst he
      exact hreach
  · intro p hp
    rcases (hmem₂ p).mp hp with hm | he
    · exact inv.vis_min p hm
    · subst he
      exact hmin
  · intro p hp
    rcases (hmem₂ p).mp hp with hm | he
    · exact inv.vis_maxd p hm
    · subst he
      exact hdle
  · rw [mapSet_fresh _ _ _ (mapGet_none_of_not_mapHas h),
      List.map_append, List.map_cons, List.map_nil]
    refine List.Nodup.append inv.vis_nodup (List.nodup_singleton _) ?_
    intro a ha hb
    simp only [List.mem_singleton] at hb
    subst hb
    exact not_mem_keys_of_not_mapHas h ha
  · intro p hp
    rcases (hmem₂ p).mp hp with hm | he
    · exact inv.vis_haskey p hm
    · subst he
      exact hkey
  · intro p hp
    rcases List.mem_append.mp hp with hm | hm
    · exact inv.q_sound p (List.mem_cons_of_mem _ hm)
    · obtain ⟨hd2, hedge⟩ := hps₂ p hm
      refine ⟨?_, by omega, hedge.2⟩
      rw [hd2]
      exact ReachIn_step hreach hedge
  · refine List.pairwise_append.mpr
      ⟨(List.pairwise_cons.mp inv.q_sorted).2, ?_, ?_⟩
    · refine List.pairwise_of_forall_mem_list ?_
      intro a ha b hb
      rw [(hps₂ a ha).1, (hps₂ b hb).1]
    · intro a ha b hb
      have h₁ := inv.q_bound a (List.mem_cons_of_mem _ ha) (key, depth)
        (List.mem_cons_self _ _)
      have h₂ := (hps₂ b hb).1
      simp only at h₁
      omega
  · intro p hp r hr
    rcases List.mem_append.mp hp with hm | hm <;>
      rcases List.mem_append.mp hr with hm₂ | hm₂
    · exact inv.q_bound p (List.mem_cons_of_mem _ hm) r
        (List.mem_cons_of_mem _ hm₂)
    · have h₁ := inv.q_bound p (List.mem_cons_of_mem _ hm) (key, depth)
        (List.mem_cons_self _ _)
      have h₂ := (hps₂ r hm₂).1
      simp only at h₁
      omega
    · have h₁ := (hps₂ p hm).1
      have h₂ := hsorted r hm₂
      simp only at h₂
      omega
    · rw [(hps₂ p hm).1, (hps₂ r hm₂).1]
      omega
  · intro p hp hplt t hedge
    rcases (hmem₂ p).mp hp with hm | he
    · rcases inv.nbrs p hm hplt t hedge with ⟨d, hd, hmm⟩ | hq
      · exact Or.inl ⟨d, hd, (hmem₂ _).mpr (Or.inl hmm)⟩
      · rcases List.mem_cons.mp hq with heq | hmq
        · injection heq with he₁ he₂
          subst he₁
          exact Or.inl ⟨depth, by omega, (hmem₂ _).mpr (Or.inr rfl)⟩
        · exact Or.inr (List.mem_append.mpr (Or.inl hmq))
    · subst he
      exact Or.inr (List.mem_append.mpr (Or.inr (hps₁ t hedge)))
  · intro r hr
    rcases inv.roots r hr with ⟨d, hd⟩ | hq
    · exact Or.inl ⟨d, (hmem₂ _).mpr (Or.inl hd)⟩
    · rcases List.mem_cons.mp hq with heq | hmq
      · injection heq with he₁ he₂
        subst he₁
        exact Or.inl ⟨depth, (hmem₂ _).mpr (Or.inr rfl)⟩
      · exact Or.inr (List.mem_append.mpr (Or.inl hmq))

/-- Invariant preservation when the popped key is visited at the depth
budget (no expansion). -/
theorem bfsInv_step_maxd {state : GraphState} {rootKeys : List Str}
    {maxDepth : Nat} {key : Str} {depth : Nat} {rest : List (Str × Nat)}
    {visited : JsMap Nat}
    (inv : BfsInv state rootKeys maxDepth ((key, depth) :: rest) visited)
    (h : mapHas visited key = false)
    (hnlt : ¬ depth < maxDepth) :
    BfsInv state rootKeys maxDepth rest (mapSet visited key depth) := by
  obtain ⟨hreach, hdle, hkey⟩ := inv.q_sound (key, depth) (List.mem_cons_self _ _)
  have hmin := bfs_head_min inv h hdle
  have hmem₂ := fun q => mem_mapSet_fresh (v := depth) h q
  refine
    { vis_sound := ?_, vis_min := ?_, vis_maxd := ?_, vis_nodup := ?_
      vis_haskey := ?_, q_sound := ?_, q_sorted := ?_, q_bound := ?_
      nbrs := ?_, roots := ?_ }
  · intro p hp
    rcases (hmem₂ p).mp hp with hm | he
    · exact inv.vis_sound p hm
    · subst he
      exact hreach
  · intro p hp
    rcases (hmem₂ p).mp hp with hm | he
    · exact inv.vis_min p hm
    · subst he
      exact hmin
  · intro p hp
    rcases (hmem₂ p).mp hp with hm | he
    · exact inv.vis_maxd p hm
    · subst he
      exact hdle
  · rw [mapSet_fresh _ _ _ (mapGet_none_of_not_mapHas h),
      List.map_append, List.map_cons, List.map_nil]
    refine List.Nodup.append inv.vis_nodup (List.nodup_singleton _) ?_
    intro a ha hb
    simp only [List.mem_singleton] at hb
    subst hb
    exact not_mem_keys_of_not_mapHas h ha
  · intro p hp
    rcases (hmem₂ p).mp hp with hm | he
    · exact inv.vis_haskey p hm
    · subst he
      exact hkey
  · exact fun p hp => inv.q_sound p (List.mem_cons_of_mem _ hp)
  · exact (List.pairwise_cons.mp inv.q_sorted).2
  · exact fun p hp r hr =>
      inv.q_bound p (List.mem_cons_of_mem _ hp) r (List.mem_cons_of_mem _ hr)
  · intro p hp hplt t hedge
    rcases (hmem₂ p).mp hp with hm | he
    · rcases inv.nbrs p hm hplt t hedge with ⟨d, hd, hmm⟩ | hq
      · exact Or.inl ⟨d, hd, (hmem₂ _).mpr (Or.inl hmm)⟩
      · rcases List.mem_cons.mp hq with heq | hmq
        · injection heq with he₁ he₂
          subst he₁
          exact Or.inl ⟨depth, by omega, (hmem₂ _).mpr (Or.inr rfl)⟩
        · exact Or.inr hmq
    · subst he
      simp only at hplt
      exact absurd hplt hnlt
  · intro r hr
    rcases inv.roots r hr with ⟨d, hd⟩ | hq
    · exact Or.inl ⟨d, (hmem₂ _).mpr (Or.inl hd)⟩
    · rcases List.mem_cons.mp hq with heq | hmq
      · injection heq with he₁ he₂
        subst he₁
        exact Or.inl ⟨depth, (hmem₂ _).mpr (Or.inr rfl)⟩
      · exact Or.inr hmq

theorem bfsLoop_nil_eq (state : GraphState) (maxDepth : Nat) (ex : List Str)
    (visited : JsMap Nat) (lt : JsMap LinkType) (mf : List Str) :
    bfsLoop state maxDepth ex [] visited lt mf = (visited, lt, mf) := by
  rw [bfsLoop]

theorem bfsLoop_visited_step (state : GraphState) (maxDepth : Nat)
    (ex : List Str) (key : Str) (depth : Nat) (rest : List (Str × Nat))
    (visited : JsMap Nat) (lt : JsMap LinkType) (mf : List Str)
    (h : mapHas visited key = true) :
    bfsLoop state maxDepth ex ((key, depth) :: rest) visited lt mf =
      bfsLoop state maxDepth ex rest visited lt mf := by
  rw [bfsLoop]
  rw [dif_pos h]

theorem bfsLoop_expand_step (state : GraphState) (maxDepth : Nat)
    (ex : List Str) (key : Str) (depth : Nat) (rest : List (Str × Nat))
    (visited : JsMap Nat) (lt : JsMap LinkType) (mf : List Str)
    (pushes : List (Str × Nat)) (lt₂ : JsMap LinkType) (mf₂ : List Str)
    (h : mapHas visited key = false) (hlt : depth < maxDepth)
    (hpn : processNeighbors state key depth ex lt mf = (pushes, lt₂, mf₂)) :
    bfsLoop state maxDepth ex ((key, depth) :: rest) visited lt mf =
      bfsLoop state maxDepth ex (rest ++ pushes) (mapSet visited key depth)
        lt₂ mf₂ := by
  rw [bfsLoop]
  rw [dif_neg (by simp [h])]
  simp only [if_pos hlt, hpn]

theorem bfsLoop_maxd_step (state : GraphState) (maxDepth : Nat)
    (ex : List Str) (key : Str) (depth : Nat) (rest : List (Str × Nat))
    (visited : JsMap Nat) (lt : JsMap LinkType) (mf : List Str)
    (h : mapHas visited key = false) (hnlt : ¬ depth < maxDepth) :
    bfsLoop state maxDepth ex ((key, depth) :: rest) visited lt mf =
      bfsLoop state maxDepth ex rest (mapSet visited key depth) lt mf := by
  rw [bfsLoop]
  rw [dif_neg (by simp [h])]
  simp only [if_neg hnlt]

/-- What holds of the visited map when the queue is exhausted. -/
def BfsPost (state : GraphState) (rootKeys : List Str) (maxDepth : Nat)
    (visited : JsMap Nat) : Prop :=
  (∀ p ∈ visited, ReachIn state rootKeys p.2 p.1 ∧ p.2 ≤ maxDepth ∧
      mapHas state.notes p.1 = true ∧
      ∀ e, ReachIn state rootKeys e p.1 → p.2 ≤ e) ∧
  (visited.map Prod.fst).Nodup ∧
  (∀ e, e ≤ maxDepth → ∀ k, ReachIn state rootKeys e k →
      ∃ d, d ≤ e ∧ (k, d) ∈ visited)

/-- Running the BFS loop from any state satisfying the invariant yields a
visited map with sound minimal depths, no duplicate keys, and every
reachable note within the budget present. -/
theorem bfsLoop_invariant (state : GraphState) (rootKeys : List Str)
    (maxDepth : Nat) (queue : List (Str × Nat)) (visited : JsMap Nat)
    (lt : JsMap LinkType) (mf : List Str)
    (inv : BfsInv state rootKeys maxDepth queue visited) :
    BfsPost state rootKeys maxDepth
      (bfsLoop state maxDepth [] queue visited lt mf).1 := by
  induction queue, visited, lt, mf using bfsLoop.induct state maxDepth [] with
  | case1 visited lt mf =>
    rw [bfsLoop_nil_eq]
    refine ⟨?_, inv.vis_nodup, ?_⟩
    · exact fun p hp => ⟨inv.vis_sound p hp, inv.vis_maxd p hp,
        inv.vis_haskey p hp, inv.vis_min p hp⟩
    · intro e he k hr
      rcases bfs_reach_witness inv e he k hr with ⟨d, hd, hm⟩ | ⟨p, hp, _⟩
      · exact ⟨d, hd, hm⟩
      · cases hp
  | case2 key depth rest visited lt mf h ih =>
    rw [bfsLoop_visited_step state maxDepth [] key depth rest visited lt mf h]
    exact ih (bfsInv_tail_of_visited inv h)
  | case3 key depth rest visited lt mf h v₂ hlt pushes lt₂ mf₂ hpn ih =>
    have hf : mapHas visited key = false := bool_eq_false _ h
    rw [bfsLoop_expand_step state maxDepth [] key depth rest visited lt mf
      pushes lt₂ mf₂ hf hlt hpn]
    exact ih (bfsInv_step_expand inv hf hlt hpn)
  | case4 key depth rest visited lt mf h v₂ hnlt ih =>
    have hf : mapHas visited key = false := bool_eq_false _ h
    rw [bfsLoop_maxd_step state maxDepth [] key depth rest visited lt mf
      hf hnlt]
    exact ih (bfsInv_step_maxd inv hf hnlt)

theorem insSorted_perm {α : Type} (lt : α → α → Bool) (x : α) (l : List α) :
    List.Perm (insSorted lt x l) (x :: l) := by
  induction l with
  | nil => exact List.Perm.refl _
  | cons y ys ih =>
    by_cases h : lt y x = true
    · simp only [insSorted, if_pos h]
      exact (ih.cons y).trans (List.Perm.swap x y ys)
    · simp only [insSorted, if_neg h]
      exact List.Perm.refl _

theorem sortStable_perm {α : Type} (lt : α → α → Bool) (l : List α) :
    List.Perm (sortStable lt l) l := by
  induction l with
  | nil => exact List.Perm.refl _
  | cons x xs ih =>
    show List.Perm (insSorted lt x (sortStable lt xs)) (x :: xs)
    exact (insSorted_perm lt x _).trans (ih.cons x)

/-- Under the `buildGraph` key discipline (every stored note sits under
its own normalized name), a resolved note is stored under its key. -/
theorem resolveNote_key {nfd : Str → Str} {state : GraphState} {name : Str}
    {note : Note}
    (hwf : ∀ p ∈ state.notes, normKey p.2.name = p.1)
    (hres : resolveNote nfd name state = some note) :
    mapGet state.notes (normKey note.name) = some note := by
  unfold resolveNote fuzzyResolve at hres
  split at hres
  · rename_i n hg
    injection hres with he
    subst he
    have hk := hwf (normKey name, n) (mem_of_mapGet hg)
    rw [hk]
    exact hg
  · split at hres
    · rename_i fkey hfz
      split at hres
      · cases hres
      · have hkk := hwf (fkey, note) (mem_of_mapGet hres)
        rw [hkk]
        exact hres
    · cases hres

/-- The invariant at the start of the loop: empty visited map, every
root queued at depth 0. -/
theorem bfsInv_init (state : GraphState) (rootKeys : List Str)
    (maxDepth : Nat)
    (hroots : ∀ r ∈ rootKeys, mapHas state.notes r = true) :
    BfsInv state rootKeys maxDepth (rootKeys.map (fun r => (r, 0))) [] := by
  refine
    { vis_sound := fun p hp => absurd hp (List.not_mem_nil p)
      vis_min := fun p hp => absurd hp (List.not_mem_nil p)
      vis_maxd := fun p hp => absurd hp (List.not_mem_nil p)
      vis_nodup := List.nodup_nil
      vis_haskey := fun p hp => absurd hp (List.not_mem_nil p)
      q_sound := ?_, q_sorted := ?_, q_bound := ?_
      nbrs := fun p hp => absurd hp (List.not_mem_nil p)
      roots := fun r hr => Or.inr (List.mem_map.mpr ⟨r, hr, rfl⟩) }
  · intro p hp
    obtain ⟨r, hr, he⟩ := List.mem_map.mp hp
    subst he
    exact ⟨⟨r, hr, .refl r⟩, Nat.zero_le _, hroots r hr⟩
  · refine List.pairwise_of_forall_mem_list ?_
    intro a ha b hb
    obtain ⟨r, _, he⟩ := List.mem_map.mp ha
    subst he
    exact Nat.zero_le _
  · intro p hp r hr
    obtain ⟨x, _, he⟩ := List.mem_map.mp hp
    subst he
    exact Nat.le_succ_of_le (Nat.zero_le _)

theorem ReachIn_singleton (state : GraphState) (r : Str) (e : Nat) (k : Str) :
    ReachIn state [r] e k ↔ GPath state r e k := by
  constructor
  · rintro ⟨r₂, hr₂, hp⟩
    rw [List.mem_singleton] at hr₂
    subst hr₂
    exact hp
  · intro hp
    exact ⟨r, List.mem_singleton.mpr rfl, hp⟩

/-- The notes list of a traversal result. -/
def traverseNotes : TraverseResult → List TraverseNoteEntry
  | .err _ n _ => n
  | .ok _ _ n _ => n

theorem nodup_filterMap_fst {β : Type} (vis : JsMap Nat)
    (g : Str → Option β)
    (hinj : ∀ k k', ∀ b ∈ g k, b ∈ g k' → k = k')
    (hnd : (vis.map Prod.fst).Nodup) :
    (vis.filterMap (fun kv => g kv.1)).Nodup := by
  have he : vis.filterMap (fun kv => g kv.1) =
      List.filterMap g (vis.map Prod.fst) :=
    (List.filterMap_map Prod.fst g vis).symm
  rw [he]
  exact hnd.filterMap hinj

/-- Single-root `traverse` unfolded against an evaluated BFS loop. -/
theorem traverse_single_eq (nfd : Str → Str) (n : Str) (maxDepth : Nat)
    (state : GraphState) (note : Note) (vis : JsMap Nat)
    (lts : JsMap LinkType) (mfs : List Str)
    (hres : resolveAll nfd state [n] = .ok [note])
    (hbf : bfsLoop state maxDepth [] [(normKey note.name, 0)] [] [] [] =
      (vis, lts, mfs)) :
    traverse nfd (.inl n) maxDepth state [] =
      .ok (.single note.name) maxDepth
        (sortStable entryLtB (vis.filterMap (fun kv =>
          (mapGet state.notes kv.1).map (fun note₂ =>
            ({ name := note₂.name, path := note₂.path, depth := kv.2,
               tags := allTags note₂,
               frontmatterTags := note₂.frontmatterTags,
               inlineTags := note₂.inlineTags,
               link_type := mapGet lts kv.1 } : TraverseNoteEntry)))))
        (mfs.map (fun name =>
          ({ name := name,
             referenced_by := (mapGet state.missing name).getD [] } :
            TraverseMissingEntry))) := by
  unfold traverse
  simp only [hres, List.map_cons, List.map_nil, hbf, List.headD_cons]

/-- The BFS core of claim C2, at the level of `traverse` with a single
resolvable root and no folder exclusions: no duplicate notes, each
reported depth is the length of a shortest forward-link path from the
root, and every note reachable within the budget is reported. -/
theorem traverse_single_correct (nfd : Str → Str) (state : GraphState)
    (maxDepth : Nat) (n : Str) (note : Note)
    (hwf : ∀ p ∈ state.notes, normKey p.2.name = p.1)
    (hres : resolveNote nfd n state = some note) :
    ((traverseNotes (traverse nfd (.inl n) maxDepth state [])).map
        TraverseNoteEntry.name).Nodup ∧
    (∀ entry ∈ traverseNotes (traverse nfd (.inl n) maxDepth state []),
      entry.depth ≤ maxDepth ∧
      GPath state (normKey note.name) entry.depth (normKey entry.name) ∧
      ∀ e, GPath state (normKey note.name) e (normKey entry.name) →
        entry.depth ≤ e) ∧
    (∀ e, e ≤ maxDepth → ∀ k, GPath state (normKey note.name) e k →
      ∃ entry ∈ traverseNotes (traverse nfd (.inl n) maxDepth state []),
        normKey entry.name = k ∧ entry.depth ≤ e) := by
  have hres' : resolveAll nfd state [n] = .ok [note] := by
    simp only [resolveAll, hres]
  have hroot : mapGet state.notes (normKey note.name) = some note :=
    resolveNote_key hwf hres
  have hrk : mapHas state.notes (normKey note.name) = true := by
    unfold mapHas
    rw [hroot]
    rfl
  have hinv : BfsInv state [normKey note.name] maxDepth
      [(normKey note.name, 0)] [] := by
    have hini := bfsInv_init state [normKey note.name] maxDepth ?_
    · simpa using hini
    · intro x hx
      rw [List.mem_singleton] at hx
      subst hx
      exact hrk
  obtain ⟨⟨vis, lts, mfs⟩, hbf⟩ :
      ∃ r, bfsLoop state maxDepth [] [(normKey note.name, 0)] [] [] [] = r :=
    ⟨_, rfl⟩
  have hpost := bfsLoop_invariant state [normKey note.name] maxDepth
    [(normKey note.name, 0)] [] [] [] hinv
  rw [hbf] at hpost
  obtain ⟨hsound, hnodup, hcomplete⟩ := hpost
  have htr := traverse_single_eq nfd n maxDepth state note vis lts mfs
    hres' hbf
  rw [htr]
  simp only [traverseNotes]
  have hperm := sortStable_perm entryLtB (vis.filterMap (fun kv =>
    (mapGet state.notes kv.1).map (fun note₂ =>
      ({ name := note₂.name, path := note₂.path, depth := kv.2,
         tags := allTags note₂,
         frontmatterTags := note₂.frontmatterTags,
         inlineTags := note₂.inlineTags,
         link_type := mapGet lts kv.1 } : TraverseNoteEntry))))
  refine ⟨?_, ?_, ?_⟩
  · rw [List.Perm.nodup_iff (hperm.map TraverseNoteEntry.name)]
    rw [List.map_filterMap]
    simp only [Option.map_map, Function.comp_def]
    refine nodup_filterMap_fst vis
      (fun k => Option.map (fun x => x.name) (mapGet state.notes k)) ?_ hnodup
    intro k k' b hb hb'
    rw [Option.mem_def] at hb hb'
    obtain ⟨n₁, hg₁, hn₁⟩ := Option.map_eq_some'.mp hb
    obtain ⟨n₂, hg₂, hn₂⟩ := Option.map_eq_some'.mp hb'
    have h₁ := hwf (k, n₁) (mem_of_mapGet hg₁)
    have h₂ := hwf (k', n₂) (mem_of_mapGet hg₂)
    simp only at h₁ h₂ hn₁ hn₂
    rw [← h₁, ← h₂, hn₁, hn₂]
  · intro entry hentry
    have hmem := (hperm.mem_iff).mp hentry
    obtain ⟨kv, hkv, hf⟩ := List.mem_filterMap.mp hmem
    obtain ⟨note₂, hg, hb⟩ := Option.map_eq_some'.mp hf
    obtain ⟨hs₁, hs₂, _, hs₄⟩ := hsound kv hkv
    have hkey : normKey note₂.name = kv.1 :=
      hwf (kv.1, note₂) (mem_of_mapGet hg)
    subst hb
    refine ⟨hs₂, ?_, ?_⟩
    · show GPath state (normKey note.name) kv.2 (normKey note₂.name)
      rw [hkey]
      exact (ReachIn_singleton state (normKey note.name) kv.2 kv.1).mp hs₁
    · intro e hgp
      refine hs₄ e ?_
      rw [ReachIn_singleton, ← hkey]
      exact hgp
  · intro e he k hgp
    obtain ⟨d, hd, hm⟩ := hcomplete e he k
      ((ReachIn_singleton state (normKey note.name) e k).mpr hgp)
    obtain ⟨_, _, hs₃, _⟩ := hsound (k, d) hm
    have hgk : ∃ note₂, mapGet state.notes k = some note₂ := by
      unfold mapHas at hs₃
      cases hgg : mapGet state.notes k with
      | none => rw [hgg] at hs₃; cases hs₃
      | some n₂ => exact ⟨n₂, rfl⟩
    obtain ⟨note₂, hg⟩ := hgk
    refine ⟨{ name := note₂.name, path := note₂.path, depth := d,
              tags := allTags note₂,
              frontmatterTags := note₂.frontmatterTags,
              inlineTags := note₂.inlineTags,
              link_type := mapGet lts k }, ?_, ?_, hd⟩
    · refine (hperm.mem_iff).mpr (List.mem_filterMap.mpr ⟨(k, d), hm, ?_⟩)
      rw [hg]
      rfl
    · exact hwf (k, note₂) (mem_of_mapGet hg)

/-! The chain example A → B → C of the claim. -/

def c2A : Note :=
  { name := str "A", path := str "/v/A.md", content := [], mtime := 0,
    wikilinks := [{ name := str "B", heading := none, aliasText := none,
                    line := 1, embed := false }],
    frontmatterTags := [], inlineTags := [] }

def c2B : Note :=
  { name := str "B", path := str "/v/B.md", content := [], mtime := 0,
    wikilinks := [{ name := str "C", heading := none, aliasText := none,
                    line := 1, embed := false }],
    frontmatterTags := [], inlineTags := [] }

def c2C : Note :=
  { name := str "C", path := str "/v/C.md", content := [], mtime := 0,
    wikilinks := [], frontmatterTags := [], inlineTags := [] }

def c2state : GraphState := buildGraphState id (str "/v") [c2A, c2B, c2C]

def c2entryA : TraverseNoteEntry :=
  { name := str "A", path := str "/v/A.md", depth := 0, tags := [],
    frontmatterTags := [], inlineTags := [], link_type := none }

def c2entryB : TraverseNoteEntry :=
  { name := str "B", path := str "/v/B.md", depth := 1, tags := [],
    frontmatterTags := [], inlineTags := [], link_type := some .wikilink }

def c2entryC : TraverseNoteEntry :=
  { name := str "C", path := str "/v/C.md", depth := 2, tags := [],
    frontmatterTags := [], inlineTags := [], link_type := some .wikilink }

theorem c2_bfs1 : bfsLoop c2state 1 [] [(str "a", 0)] [] [] [] =
    ([(str "a", 0), (str "b", 1)], [(str "b", LinkType.wikilink)], []) := by
  rw [bfsLoop_expand_step c2state 1 [] (str "a") 0 [] [] [] []
    [(str "b", 1)] [(str "b", LinkType.wikilink)] []
    (by decide) (by decide) (by decide)]
  show bfsLoop c2state 1 [] [(str "b", 1)] [(str "a", 0)]
    [(str "b", LinkType.wikilink)] [] = _
  rw [bfsLoop_maxd_step c2state 1 [] (str "b") 1 [] [(str "a", 0)]
    [(str "b", LinkType.wikilink)] [] (by decide) (by decide)]
  show bfsLoop c2state 1 [] [] [(str "a", 0), (str "b", 1)]
    [(str "b", LinkType.wikilink)] [] = _
  rw [bfsLoop_nil_eq]

theorem c2_bfs2 : bfsLoop c2state 2 [] [(str "a", 0)] [] [] [] =
    ([(str "a", 0), (str "b", 1), (str "c", 2)],
      [(str "b", LinkType.wikilink), (str "c", LinkType.wikilink)], []) := by
  rw [bfsLoop_expand_step c2state 2 [] (str "a") 0 [] [] [] []
    [(str "b", 1)] [(str "b", LinkType.wikilink)] []
    (by decide) (by decide) (by decide)]
  show bfsLoop c2state 2 [] [(str "b", 1)] [(str "a", 0)]
    [(str "b", LinkType.wikilink)] [] = _
  rw [bfsLoop_expand_step c2state 2 [] (str "b") 1 [] [(str "a", 0)]
    [(str "b", LinkType.wikilink)] []
    [(str "c", 2)] [(str "b", LinkType.wikilink), (str "c", LinkType.wikilink)]
    [] (by decide) (by decide) (by decide)]
  show bfsLoop c2state 2 [] [(str "c", 2)] [(str "a", 0), (str "b", 1)]
    [(str "b", LinkType.wikilink), (str "c", LinkType.wikilink)] [] = _
  rw [bfsLoop_maxd_step c2state 2 [] (str "c") 2 []
    [(str "a", 0), (str "b", 1)]
    [(str "b", LinkType.wikilink), (str "c", LinkType.wikilink)] []
    (by decide) (by decide)]
  show bfsLoop c2state 2 [] [] [(str "a", 0), (str "b", 1), (str "c", 2)]
    [(str "b", LinkType.wikilink), (str "c", LinkType.wikilink)] [] = _
  rw [bfsLoop_nil_eq]

theorem c2_traverse1 : traverse id (.inl (str "A")) 1 c2state [] =
    .ok (.single (str "A")) 1 [c2entryA, c2entryB] [] := by
  rw [traverse_single_eq id (str "A") 1 c2state c2A
    [(str "a", 0), (str "b", 1)] [(str "b", LinkType.wikilink)] []
    rfl c2_bfs1]
  decide

theorem c2_traverse2 : traverse id (.inl (str "A")) 2 c2state [] =
    .ok (.single (str "A")) 2 [c2entryA, c2entryB, c2entryC] [] := by
  rw [traverse_single_eq id (str "A") 2 c2state c2A
    [(str "a", 0), (str "b", 1), (str "c", 2)]
    [(str "b", LinkType.wikilink), (str "c", LinkType.wikilink)] []
    rfl c2_bfs2]
  decide

/-- Claim C2: BFS depth correctness of `traverse` — for every graph whose
notes sit under their normalized names and every resolvable single root,
each note appears at most once in the result, its reported depth is the
length of a shortest forward-link path from the root, and every note
reachable within the depth budget is reported; in particular, for the
three-note chain A→B→C, `traverse("A", 1)` returns exactly A at depth 0
and B at depth 1 with C excluded, and `traverse("A", 2)` additionally
includes C at depth 2. -/
theorem claim_C2_bfs_depth_correctness :
    (∀ (nfd : Str → Str) (state : GraphState) (maxDepth : Nat) (n : Str)
        (note : Note),
      (∀ p ∈ state.notes, normKey p.2.name = p.1) →
      resolveNote nfd n state = some note →
      ((traverseNotes (traverse nfd (.inl n) maxDepth state [])).map
          TraverseNoteEntry.name).Nodup ∧
      (∀ entry ∈ traverseNotes (traverse nfd (.inl n) maxDepth state []),
        entry.depth ≤ maxDepth ∧
        GPath state (normKey note.name) entry.depth (normKey entry.name) ∧
        ∀ e, GPath state (normKey note.name) e (normKey entry.name) →
          entry.depth ≤ e) ∧
      (∀ e, e ≤ maxDepth → ∀ k, GPath state (normKey note.name) e k →
        ∃ entry ∈ traverseNotes (traverse nfd (.inl n) maxDepth state []),
          normKey entry.name = k ∧ entry.depth ≤ e)) ∧
    traverse id (.inl (str "A")) 1 c2state [] =
      .ok (.single (str "A")) 1 [c2entryA, c2entryB] [] ∧
    traverse id (.inl (str "A")) 2 c2state [] =
      .ok (.single (str "A")) 2 [c2entryA, c2entryB, c2entryC] [] :=
  ⟨traverse_single_correct, c2_traverse1, c2_traverse2⟩

theorem claim_C2_bfs_depth_correctness_witness :
    (∀ p ∈ c2state.notes, normKey p.2.name = p.1) ∧
    resolveNote id (str "A") c2state = some c2A ∧
    ((traverseNotes (traverse id (.inl (str "A")) 2 c2state [])).map
        TraverseNoteEntry.name).Nodup :=
  ⟨by decide, by decide,
    (claim_C2_bfs_depth_correctness.1 id c2state 2 (str "A") c2A
      (by decide) (by decide)).1⟩

end VaultKit
